import Mathlib

/-!
Verification of the `Checkpointable` dependency-graph and variable-naming
system from `tensorflow/contrib/eager/python/checkpointable.py`.

The Python module manages, per object, a list of checkpoint dependencies
(`_CheckpointableReference` namedtuples) and a list of owned variables, and
computes checkpoint keys for all variables reachable from a root object via a
breadth-first traversal (`_breadth_first_checkpointable_traversal`) followed by
a naming pass (`_name_variables`).

The embedding below models:
* Python object identity by natural-number ids (`CRef.ref`, `Graph.objs`);
* the `_CheckpointableReference` namedtuple by `CRef` (tuple equality in
  Python is structural on `(name, local_uid, id(ref))`, matching `CRef`'s
  derived decidable equality);
* Python dicts keyed by strings/namedtuples by association lists with
  first-match lookup and in-place-overwrite insertion (`alookup`,
  `dictInsert`), which reproduces `d[k] = v` semantics including insertion
  order;
* exceptions by `Except` values.
-/

/-- Association-list lookup: first entry whose key equals `a`
(the semantics of reading a Python dict, keys being compared with `==`). -/
def alookup {α β : Type} [DecidableEq α] : List (α × β) → α → Option β
  | [], _ => none
  | e :: l, a => if e.1 = a then some e.2 else alookup l a

/-- Python dict assignment `d[k] = v`: if the key is present its value is
replaced in place, otherwise the pair is appended (insertion order). -/
def dictInsert {α β : Type} [DecidableEq α] (l : List (α × β)) (a : α) (b : β) :
    List (α × β) :=
  if (alookup l a).isSome then l.map (fun e => if e.1 = a then (a, b) else e)
  else l ++ [(a, b)]

/-- Folding `dictInsert` over a list of entries (a sequence of Python dict
assignments). -/
def dictInsertAll {α β : Type} [DecidableEq α] (l : List (α × β))
    (es : List (α × β)) : List (α × β) :=
  es.foldl (fun d e => dictInsert d e.1 e.2) l

/-- The `_CheckpointableReference` namedtuple: local name (if given), position
`local_uid` in the parent's dependency list, and the id of the referenced
`Checkpointable` object. -/
structure CRef where
  name : Option String
  local_uid : Nat
  ref : Nat
deriving DecidableEq

/-- Snapshot of one `Checkpointable` object's state: its
`_checkpoint_dependencies`, its `_owned_variables` (variable local name and
the id of the variable object), and — when the object is a
`tf.train.Optimizer` — its slot names and its slot mapping
(`get_slot(variable, slot_name)` as an association over (variable id, slot
name) pairs). -/
structure Obj where
  deps : List CRef
  ownedVars : List (String × Nat)
  isOptimizer : Bool
  slotNames : List String
  slots : List (Nat × String × Nat)
deriving DecidableEq

/-- The empty object: what an id not bound in the heap dereferences to
(never reached from a well-formed graph, but kept total). -/
def defaultObj : Obj := ⟨[], [], false, [], []⟩

/-- `optimizer.get_slot(variable, slot_name)`: `None` when no slot variable
was created for that (variable, slot name) pair. -/
def Obj.getSlot (o : Obj) (v : Nat) (s : String) : Option Nat :=
  (o.slots.find? (fun e => decide (e.1 = v) && decide (e.2.1 = s))).map (·.2.2)

/-- A heap of `Checkpointable` objects (ids are list positions) plus the id of
`root_checkpointable`. -/
structure Graph where
  objs : List Obj
  root : Nat
deriving DecidableEq

/-- Dereference an object id. -/
def Graph.obj (g : Graph) (i : Nat) : Obj := g.objs.getD i defaultObj

/-- `current_checkpointable.ref.checkpoint_dependencies`. -/
def children (g : Graph) (r : CRef) : List CRef := (g.obj r.ref).deps

/-- The synthetic reference to the root:
`_CheckpointableReference(name=None, local_uid=0, ref=root_checkpointable)`. -/
def rootRef (g : Graph) : CRef := ⟨none, 0, g.root⟩

/-- Every `_CheckpointableReference` stored in any object of the heap. -/
def allDeps (g : Graph) : List CRef := (g.objs.map Obj.deps).flatten

/-- The path recorded for `r` in `path_to_root` (`()` when absent; the code
never reads an absent key). -/
def recPath (p : List (CRef × List CRef)) (r : CRef) : List CRef :=
  (alookup p r).getD []

/-- Length of the recorded path (the BFS distance of a discovered node). -/
def recLen (p : List (CRef × List CRef)) (r : CRef) : Nat := (recPath p r).length

/-- The inner `for child_checkpointable in ...checkpoint_dependencies` loop of
the traversal: each not-yet-discovered child is recorded in `path_to_root`
(with path `path_to_root[current] + (child,)`) and appended to the queue. -/
def visitChildren (pa : List CRef) (cs : List CRef)
    (p : List (CRef × List CRef)) (q : List CRef) :
    List (CRef × List CRef) × List CRef :=
  cs.foldl
    (fun st c =>
      if (alookup st.1 c).isSome then st
      else (st.1 ++ [(c, pa ++ [c])], st.2 ++ [c]))
    (p, q)

/-- The `while to_visit:` loop of `_breadth_first_checkpointable_traversal`,
with explicit fuel (the loop has no structural decrease; `bfsFuel` below is
always enough, which is the termination theorem). State: queue `to_visit`,
accumulated `bfs_sorted`, and `path_to_root`. -/
def bfsAux (g : Graph) :
    Nat → List CRef → List CRef → List (CRef × List CRef) →
    Option (List CRef × List (CRef × List CRef))
  | 0, _, _, _ => none
  | _ + 1, [], s, p => some (s, p)
  | fuel + 1, cur :: rest, s, p =>
      let st := visitChildren (recPath p cur) (children g cur) p rest
      bfsAux g fuel st.2 (s ++ [cur]) st.1

/-- Sufficient fuel: the queue only ever holds distinct discovered references,
and at most `1 + |allDeps g|` references are ever discovered. -/
def bfsFuel (g : Graph) : Nat := (allDeps g).length + 3

/-- `_breadth_first_checkpointable_traversal(root_checkpointable)`: returns
`(bfs_sorted, path_to_root)`. -/
def breadth_first_checkpointable_traversal (g : Graph) :
    List CRef × List (CRef × List CRef) :=
  (bfsAux g (bfsFuel g) [rootRef g] [] [(rootRef g, [])]).getD ([], [])

/-! ## Paths and reachability in the reference graph

`path_to_root` values are tuples of `_CheckpointableReference`s; the node a
path leads to is its last element (the root reference for the empty path).
`ReachPath g r p` says: starting from the synthetic root reference and
repeatedly following `checkpoint_dependencies` edges, the sequence `p` of
references is traversed and ends at `r`. -/

/-- A path (as stored in `path_to_root`) from the root reference to `r`. -/
inductive ReachPath (g : Graph) : CRef → List CRef → Prop where
  | nil : ReachPath g (rootRef g) []
  | cons {r c : CRef} {p : List CRef} :
      ReachPath g r p → c ∈ children g r → ReachPath g c (p ++ [c])

/-- A reference is reachable when some path leads to it. -/
def Reachable (g : Graph) (r : CRef) : Prop := ∃ p, ReachPath g r p

/-- A path from the root to the *object* with id `i`: a reference path whose
endpoint references `i` (the empty path reaches the root object). -/
def ObjPath (g : Graph) (i : Nat) (p : List CRef) : Prop :=
  ∃ r, r.ref = i ∧ ReachPath g r p

/-- An object is reachable when some path leads to it. -/
def ObjReachable (g : Graph) (i : Nat) : Prop := ∃ p, ObjPath g i p

/-- `n` is the edge-distance from the root to reference `r`: some path of
length `n` reaches `r` and no shorter one does. -/
def distIs (g : Graph) (r : CRef) (n : Nat) : Prop :=
  (∃ p, ReachPath g r p ∧ p.length = n) ∧ ∀ q, ReachPath g r q → n ≤ q.length

/-! ## Local-name validation

`_VALID_LOCAL_NAME = re.compile(r"^[A-Za-z0-9.][A-Za-z0-9_.-]*$")`, used with
`.match`, i.e. Python regex semantics: the match is anchored at the start, and
`$` also matches just before a single trailing newline. -/

/-- First-character class `[A-Za-z0-9.]`. -/
def isFirstChar (c : Char) : Bool := c.isAlphanum || c = '.'

/-- Tail-character class `[A-Za-z0-9_.-]`. -/
def isRestChar (c : Char) : Bool := c.isAlphanum || c = '_' || c = '.' || c = '-'

/-- Anchored match of the pattern body against a character list. -/
def coreMatch : List Char → Bool
  | [] => false
  | c :: cs => isFirstChar c && cs.all isRestChar

/-- `_VALID_LOCAL_NAME.match(s)` is truthy (Python `$` also matches before a
trailing newline). -/
def pyValidLocalName (s : String) : Bool :=
  coreMatch s.data ||
    (match s.data.getLast? with
     | some c => decide (c = '\n') && coreMatch s.data.dropLast
     | none => false)

/-! ## `_name_variables`: phase 1 (non-slot variables) -/

/-- One path segment: `checkpointable.name or "%d" % (checkpointable.local_uid,)`
(`or` is Python truthiness: an empty-string name also falls back to the uid). -/
def renderSeg (c : CRef) : String :=
  match c.name with
  | some s => if s = "" then toString c.local_uid else s
  | none => toString c.local_uid

/-- `_name_from_path(path)`: `"/".join(segment for checkpointable in path)`. -/
def name_from_path (p : List CRef) : String :=
  String.intercalate "/" (p.map renderSeg)

/-- The key of an owned variable given the (possibly empty) human-readable
path: `prefix + "/" + name if prefix else name`. -/
def keyOf (pre : String) (nm : String) : String :=
  if pre = "" then nm else pre ++ "/" ++ nm

/-- Phase 1 inner loop: insert every owned variable of one visited reference
into `named_variables`. -/
def addOwned (pre : String) (d : List (String × Nat))
    (ovs : List (String × Nat)) : List (String × Nat) :=
  ovs.foldl (fun d ov => dictInsert d (keyOf pre ov.1) ov.2) d

/-- The recorded human-readable path of a visited reference. -/
def pathOf (g : Graph) (r : CRef) : List CRef :=
  recPath (breadth_first_checkpointable_traversal g).2 r

/-- Phase 1 of `_name_variables`: walk `bfs_sorted` and key every owned
variable by `<path to node>/<local variable name>`. -/
def nonSlotDict (g : Graph) : List (String × Nat) :=
  (breadth_first_checkpointable_traversal g).1.foldl
    (fun d r => addOwned (name_from_path (pathOf g r)) d (g.obj r.ref).ownedVars)
    []

/-! ## `_name_variables`: phase 2 (optimizer slot variables) -/

/-- `_OPTIMIZER_SLOTS_NAME`. -/
def OPTIMIZER_SLOTS_NAME : String := "_OPTIMIZER_SLOT"

/-- `"/".join((_OPTIMIZER_SLOTS_NAME, _name_from_path(path_to_root[ref]), slot_name))`. -/
def suffixFor (g : Graph) (r : CRef) (slot : String) : String :=
  String.intercalate "/" [OPTIMIZER_SLOTS_NAME, name_from_path (pathOf g r), slot]

/-- Inner loop over the `non_slot_variables` snapshot for one (optimizer
reference, slot name) pair: each snapshotted variable with a slot variable for
`slot` contributes an entry `<variable name>/<suffix>`. -/
def addSlotEntries (o : Obj) (sfx : String) (slot : String) :
    List (String × Nat) → List (String × Nat) → List (String × Nat)
  | [], d => d
  | kv :: rest, d =>
      match o.getSlot kv.2 slot with
      | some sv => addSlotEntries o sfx slot rest (dictInsert d (kv.1 ++ "/" ++ sfx) sv)
      | none => addSlotEntries o sfx slot rest d

/-- Loop over one optimizer's `get_slot_names()`: an invalid slot name raises
`ValueError` before any of its entries are written. -/
def processSlots (g : Graph) (r : CRef) (snapshot : List (String × Nat))
    (o : Obj) : List String → List (String × Nat) →
    Except String (List (String × Nat))
  | [], d => .ok d
  | slot :: rest, d =>
      if pyValidLocalName slot then
        processSlots g r snapshot o rest
          (addSlotEntries o (suffixFor g r slot) slot snapshot d)
      else .error ("invalid slot name " ++ slot)

/-- Phase 2 of `_name_variables`: walk `bfs_sorted` again, and for each
`Optimizer` add slot-variable keys for every snapshotted non-slot variable. -/
def slotPhase (g : Graph) (snapshot : List (String × Nat)) :
    List CRef → List (String × Nat) → Except String (List (String × Nat))
  | [], d => .ok d
  | r :: rest, d =>
      let o := g.obj r.ref
      if o.isOptimizer then
        match processSlots g r snapshot o o.slotNames d with
        | .ok d' => slotPhase g snapshot rest d'
        | .error e => .error e
      else slotPhase g snapshot rest d

/-- `_name_variables(root_checkpointable)`: the dictionary mapping checkpoint
keys to variable (ids), or the `ValueError` raised for an invalid slot name. -/
def name_variables (g : Graph) : Except String (List (String × Nat)) :=
  slotPhase g (nonSlotDict g) (breadth_first_checkpointable_traversal g).1
    (nonSlotDict g)

/-! ## Entry traces

The same computations with plain appending instead of dict inserts: when all
generated keys are distinct these coincide with the dicts, and they make the
set of generated (key, variable) pairs directly visible. -/

/-- All phase-1 entries in generation order. -/
def nonSlotTrace (g : Graph) : List (String × Nat) :=
  ((breadth_first_checkpointable_traversal g).1.map
    (fun r => (g.obj r.ref).ownedVars.map
      (fun ov => (keyOf (name_from_path (pathOf g r)) ov.1, ov.2)))).flatten

/-- The phase-2 entries of one optimizer reference, per slot name. -/
def slotEntriesFor (g : Graph) (r : CRef) (snapshot : List (String × Nat))
    (slots : List String) : List (String × Nat) :=
  (slots.map (fun slot =>
    snapshot.filterMap (fun kv =>
      ((g.obj r.ref).getSlot kv.2 slot).map
        (fun sv => (kv.1 ++ "/" ++ suffixFor g r slot, sv))))).flatten

/-- All phase-2 entries in generation order. -/
def slotTrace (g : Graph) (snapshot : List (String × Nat)) (l : List CRef) :
    List (String × Nat) :=
  (l.map (fun r =>
    if (g.obj r.ref).isOptimizer then
      slotEntriesFor g r snapshot (g.obj r.ref).slotNames
    else [])).flatten

/-- Every (key, variable) entry `_name_variables` generates, in order. -/
def allKeysTrace (g : Graph) : List (String × Nat) :=
  nonSlotTrace g ++
    slotTrace g (nonSlotTrace g) (breadth_first_checkpointable_traversal g).1

/-- All generated checkpoint keys are pairwise distinct. -/
def NodupKeys (g : Graph) : Prop := ((allKeysTrace g).map (·.1)).Nodup

instance (g : Graph) : Decidable (NodupKeys g) :=
  List.nodupDecidable ((allKeysTrace g).map (fun e : String × Nat => e.1))

/-- Whether an `Except` result is the raised-exception case. -/
def isErr {ε α : Type} : Except ε α → Bool
  | .error _ => true
  | .ok _ => false

/-- The loop invariant of `_breadth_first_checkpointable_traversal`, for state
(queue `q`, accumulated `bfs_sorted` `s`, `path_to_root` `p`). -/
structure BFSInv (g : Graph) (q s : List CRef) (p : List (CRef × List CRef)) :
    Prop where
  keysNodup : (p.map (·.1)).Nodup
  keysEq : p.map (·.1) = s ++ q
  validPaths : ∀ e ∈ p, ReachPath g e.1 e.2
  sorted : List.Pairwise (fun a b => recLen p a ≤ recLen p b) (s ++ q)
  span : ∀ a ∈ q, ∀ b ∈ q, recLen p a ≤ recLen p b + 1
  closed : ∀ a ∈ s, ∀ c ∈ children g a,
    ∃ pc, alookup p c = some pc ∧ pc.length ≤ recLen p a + 1
  rootRec : alookup p (rootRef g) = some []
  inDeps : ∀ e ∈ p, e.1 = rootRef g ∨ e.1 ∈ allDeps g

/-- `bfs_sorted`. -/
def bfs_sorted (g : Graph) : List CRef :=
  (breadth_first_checkpointable_traversal g).1

/-- `path_to_root`. -/
def path_to_root (g : Graph) : List (CRef × List CRef) :=
  (breadth_first_checkpointable_traversal g).2

/-! ## The claims of the specification, as stated

Each `ClaimCi` is the literal universally-quantified property asserted by the
specification for `_name_variables`, transcribed over the embedding. -/

/-- Claim C1 as stated: every owned variable of every reachable object is
mapped, in the returned dictionary, by the key formed from a shortest path to
its owner (segments `name or uid`, joined by `/`) followed by its local name. -/
def ClaimC1 (g : Graph) : Prop :=
  ∀ d, name_variables g = .ok d →
  ∀ i, ObjReachable g i →
  ∀ nm vid, (nm, vid) ∈ (g.obj i).ownedVars →
  ∃ p, ObjPath g i p ∧ (∀ q, ObjPath g i q → p.length ≤ q.length) ∧
    alookup d (keyOf (name_from_path p) nm) = some vid

/-- Claim C2 (storage direction) as stated: whenever a snapshotted non-slot
variable `v` with key `k` has a slot variable `sv` under a reachable
optimizer's slot `slot`, the returned dictionary maps
`k ++ "/" ++ <_OPTIMIZER_SLOT/optimizer path/slot>` to `sv`. -/
def ClaimC2 (g : Graph) : Prop :=
  ∀ d, name_variables g = .ok d →
  ∀ r, r ∈ bfs_sorted g → (g.obj r.ref).isOptimizer = true →
  ∀ slot, slot ∈ (g.obj r.ref).slotNames →
  ∀ k v, (k, v) ∈ nonSlotDict g →
  ∀ sv, (g.obj r.ref).getSlot v slot = some sv →
  alookup d (k ++ "/" ++ suffixFor g r slot) = some sv

/-- Claim C4 as stated: every owned variable of every reachable object occurs
among the values of the returned dictionary. -/
def ClaimC4 (g : Graph) : Prop :=
  ∀ d, name_variables g = .ok d →
  ∀ i, ObjReachable g i →
  ∀ nm vid, (nm, vid) ∈ (g.obj i).ownedVars → vid ∈ d.map (·.2)

/-! ## Counterexample graphs

`gCex`: the root has two dependencies resolving to distinct objects, one
unnamed with `local_uid = 0` (rendered `"0"`), one named `"0"` (a name the
validation regex accepts). Both carry a variable named `"v"`, so both
variables are keyed `"0/v"` and the dict write of the second overwrites the
first. -/

def gCexR1 : CRef := ⟨none, 0, 1⟩

def gCexR2 : CRef := ⟨some "0", 1, 2⟩

def gCex : Graph :=
  ⟨[⟨[gCexR1, gCexR2], [], false, [], []⟩,
    ⟨[], [("v", 1)], false, [], []⟩,
    ⟨[], [("v", 2)], false, [], []⟩], 0⟩

/-- `gCex2`: one non-slot variable `"v"`, and two distinct optimizer objects
whose references render to the same path segment `"0"` (unnamed uid 0 vs the
name `"0"`); both slot `"m"` for variable 10 with different slot variables, so
the second slot write overwrites the first. -/
def gCex2 : Graph :=
  ⟨[⟨[gCexR1, gCexR2], [("v", 10)], false, [], []⟩,
    ⟨[], [], true, ["m"], [(10, "m", 11)]⟩,
    ⟨[], [], true, ["m"], [(10, "m", 12)]⟩], 0⟩

/-! ## Structural renaming (determinism)

Two runs of the same Python program produce structurally equal dependency
graphs whose object and variable identities (memory addresses / ids) differ.
`StructuralIso ρ σ g1 g2` says `g2` is `g1` with object ids renamed by `ρ`
and variable ids renamed by `σ`, everything else (declaration order, local
names, slot names) unchanged. -/

/-- Rename the object id inside a reference. -/
def renRef (ρ : Nat → Nat) (c : CRef) : CRef := ⟨c.name, c.local_uid, ρ c.ref⟩

/-- Rename all ids inside an object. -/
def renObj (ρ σ : Nat → Nat) (o : Obj) : Obj :=
  ⟨o.deps.map (renRef ρ),
   o.ownedVars.map (fun ov => (ov.1, σ ov.2)),
   o.isOptimizer, o.slotNames,
   o.slots.map (fun e => (σ e.1, e.2.1, σ e.2.2))⟩

/-- Rename a `path_to_root` entry. -/
def renEntry (ρ : Nat → Nat) (e : CRef × List CRef) : CRef × List CRef :=
  (renRef ρ e.1, e.2.map (renRef ρ))

/-- Rename the variable ids of a named-variables dictionary. -/
def mapVals (σ : Nat → Nat) (d : List (String × Nat)) : List (String × Nat) :=
  d.map (fun e => (e.1, σ e.2))

/-- Well-formed heap: the root and every stored reference point into the
object list. -/
def WFGraph (g : Graph) : Prop :=
  g.root < g.objs.length ∧
  ∀ o ∈ g.objs, ∀ c ∈ o.deps, c.ref < g.objs.length

/-- All variable ids owned by some object of the heap. -/
def ownedIds (g : Graph) : List Nat :=
  (g.objs.map (fun o => o.ownedVars.map (·.2))).flatten

/-- All variable ids appearing as `get_slot` arguments in some slot table. -/
def slotArgIds (g : Graph) : List Nat :=
  (g.objs.map (fun o => o.slots.map (·.1))).flatten

/-- The variable ids on which the renaming must be injective. -/
def injIds (g : Graph) : List Nat := ownedIds g ++ slotArgIds g

/-- `g2` is `g1` with object ids renamed by `ρ` and variable ids by `σ`. -/
def StructuralIso (ρ σ : Nat → Nat) (g1 g2 : Graph) : Prop :=
  WFGraph g1 ∧
  g2.objs.length = g1.objs.length ∧
  g2.root = ρ g1.root ∧
  (∀ i, i < g1.objs.length → ρ i < g1.objs.length) ∧
  (∀ i, i < g1.objs.length → ∀ j, j < g1.objs.length → ρ i = ρ j → i = j) ∧
  (∀ i, i < g1.objs.length → g2.obj (ρ i) = renObj ρ σ (g1.obj i)) ∧
  (∀ a ∈ injIds g1, ∀ b ∈ injIds g1, σ a = σ b → a = b)

/-! ## The `Checkpointable` object state machine

`Checkpointable.__init__` initializes four fields; `add_variable` and
`track_checkpointable` are the only mutators. Python mutates `self` and throws
exceptions, so each operation is modelled as returning the state as left by
the call (the input state when the call raises before mutating) together with
an `Except` result. -/

/-- The mutable state of one `Checkpointable`
(`_checkpoint_dependencies`, `_dependency_names`, `_owned_variables`,
`_owned_variable_names`). -/
structure CkptState where
  checkpoint_dependencies : List CRef
  dependency_names : List String
  owned_variables : List (String × Nat)
  owned_variable_names : List String
deriving DecidableEq

/-- `Checkpointable.__init__`. -/
def initCkpt : CkptState := ⟨[], [], [], []⟩

/-- `Checkpointable.add_variable(name, ...)`; `newVarId` stands for the fresh
variable object produced by the getter. The duplicate-name check precedes
every mutation. -/
def add_variable (s : CkptState) (name : String) (newVarId : Nat) :
    CkptState × Except String Nat :=
  if name ∈ s.owned_variable_names then
    (s, .error "duplicate variable name")
  else
    ({ s with
        owned_variables := s.owned_variables ++ [(name, newVarId)],
        owned_variable_names := s.owned_variable_names ++ [name] },
     .ok newVarId)

/-- `Checkpointable.track_checkpointable(checkpointable, name)`; `refId` is
the id of the tracked object (returned on success, as the Python method
returns its argument). Name validation and the duplicate check precede every
mutation; the appended reference gets `local_uid = len(_checkpoint_dependencies)`. -/
def track_checkpointable (s : CkptState) (refId : Nat) (name : Option String) :
    CkptState × Except String Nat :=
  match name with
  | some n =>
      if ¬ pyValidLocalName n then (s, .error "invalid name")
      else if n ∈ s.dependency_names then
        (s, .error "duplicate dependency name")
      else
        ({ s with
            dependency_names := s.dependency_names ++ [n],
            checkpoint_dependencies := s.checkpoint_dependencies ++
              [⟨some n, s.checkpoint_dependencies.length, refId⟩] },
         .ok refId)
  | none =>
      ({ s with checkpoint_dependencies := s.checkpoint_dependencies ++
          [⟨none, s.checkpoint_dependencies.length, refId⟩] },
       .ok refId)

/-- One call in a call sequence. -/
inductive CkptOp where
  | addVar (name : String) (newVarId : Nat)
  | track (refId : Nat) (name : Option String)
deriving DecidableEq

/-- Apply one call. -/
def applyOp (s : CkptState) : CkptOp → CkptState × Except String Nat
  | .addVar n v => add_variable s n v
  | .track r n => track_checkpointable s r n

/-- Run a call sequence from a state; a raising call leaves the state as the
operation left it (unchanged, as proved below), so this is the state after
the successful calls of the sequence. -/
def runOps (ops : List CkptOp) (s : CkptState) : CkptState :=
  ops.foldl (fun s op => (applyOp s op).1) s

/-- The C7 invariant: positional uids, distinct valid dependency names,
distinct owned-variable names. -/
def CkptInv (s : CkptState) : Prop :=
  (∀ i, (hi : i < s.checkpoint_dependencies.length) →
    (s.checkpoint_dependencies.get ⟨i, hi⟩).local_uid = i) ∧
  (s.checkpoint_dependencies.filterMap CRef.name).Nodup ∧
  (∀ n ∈ s.checkpoint_dependencies.filterMap CRef.name, pyValidLocalName n) ∧
  (s.owned_variables.map (·.1)).Nodup

/-- Internal consistency: the Python sets mirror the lists they cache. -/
def CkptConsistent (s : CkptState) : Prop :=
  s.dependency_names = s.checkpoint_dependencies.filterMap CRef.name ∧
  s.owned_variable_names = s.owned_variables.map (·.1)

/-- The inductive strengthening of `CkptInv`. -/
def StrongInv (s : CkptState) : Prop :=
  s.checkpoint_dependencies.map CRef.local_uid =
    List.range s.checkpoint_dependencies.length ∧
  (s.checkpoint_dependencies.filterMap CRef.name).Nodup ∧
  (∀ n ∈ s.checkpoint_dependencies.filterMap CRef.name, pyValidLocalName n) ∧
  (s.owned_variables.map (·.1)).Nodup ∧
  CkptConsistent s

/-! ## Witness inputs -/

/-- A two-object graph: the root owns `"w"` and depends (named `"a"`) on an
object owning `"x"`. -/
def gW : Graph :=
  ⟨[⟨[⟨some "a", 0, 1⟩], [("w", 5)], false, [], []⟩,
    ⟨[], [("x", 7)], false, [], []⟩], 0⟩

/-- A graph with one optimizer slotting variable 3 under slot `"m"`. -/
def gWS : Graph :=
  ⟨[⟨[⟨some "a", 0, 1⟩], [("v", 3)], false, [], []⟩,
    ⟨[], [], true, ["m"], [(3, "m", 4)]⟩], 0⟩

/-- Object-id renaming used by the C5 witness. -/
def rhoW : Nat → Nat := fun i => if i = 0 then 1 else if i = 1 then 0 else i

/-- Variable-id renaming used by the C5 witness. -/
def sigmaW : Nat → Nat := fun v => v + 10

/-- `gWS` with object ids swapped by `rhoW` and variable ids shifted by
`sigmaW`. -/
def gW2 : Graph :=
  ⟨[⟨[], [], true, ["m"], [(13, "m", 14)]⟩,
    ⟨[⟨some "a", 0, 0⟩], [("v", 13)], false, [], []⟩], 1⟩

/-- A `Checkpointable` state already owning a variable `"x"`. -/
def sW : CkptState := ⟨[], [], [("x", 1)], ["x"]⟩

/-- A cyclic graph: the root depends on itself under the name `"s"`. -/
def gCyc : Graph := ⟨[⟨[⟨some "s", 0, 0⟩], [("v", 1)], false, [], []⟩], 0⟩

/-! ## Association-list lemmas -/

theorem alookup_append_left {α β : Type} [DecidableEq α] {l l2 : List (α × β)}
    {a : α} {b : β} (h : alookup l a = some b) :
    alookup (l ++ l2) a = some b := by
  induction l with
  | nil => simp [alookup] at h
  | cons e t ih =>
      by_cases he : e.1 = a
      · simpa [alookup, he] using h
      · simp only [alookup, he, if_false] at h
        simpa [alookup, he] using ih h

theorem alookup_append_right {α β : Type} [DecidableEq α] {l : List (α × β)}
    (l2 : List (α × β)) {a : α} (h : alookup l a = none) :
    alookup (l ++ l2) a = alookup l2 a := by
  induction l with
  | nil => simp
  | cons e t ih =>
      by_cases he : e.1 = a
      · simp [alookup, he] at h
      · simp only [alookup, he, if_false] at h
        simpa [alookup, he] using ih h

theorem alookup_isSome_iff {α β : Type} [DecidableEq α] {l : List (α × β)}
    {a : α} : (alookup l a).isSome ↔ a ∈ l.map (·.1) := by
  induction l with
  | nil => simp [alookup]
  | cons e t ih =>
      by_cases he : e.1 = a
      · simp [alookup, he]
      · simp [alookup, he, ih, Ne.symm he]

theorem alookup_mem {α β : Type} [DecidableEq α] {l : List (α × β)}
    {a : α} {b : β} (h : alookup l a = some b) : (a, b) ∈ l := by
  induction l with
  | nil => simp [alookup] at h
  | cons e t ih =>
      by_cases he : e.1 = a
      · simp only [alookup, he, if_true, Option.some.injEq] at h
        have : e = (a, b) := by
          calc e = (e.1, e.2) := rfl
            _ = (a, b) := by rw [he, h]
        rw [this]
        exact List.mem_cons_self _ _
      · simp only [alookup, he, if_false] at h
        exact List.mem_cons_of_mem _ (ih h)

theorem alookup_eq_some_of_mem_nodup {α β : Type} [DecidableEq α]
    {l : List (α × β)} {a : α} {b : β}
    (hn : (l.map (·.1)).Nodup) (h : (a, b) ∈ l) : alookup l a = some b := by
  induction l with
  | nil => simp at h
  | cons e t ih =>
      simp only [List.map_cons, List.nodup_cons] at hn
      rcases List.mem_cons.mp h with he | ht
      · simp [alookup, ← he]
      · have hne : e.1 ≠ a := by
          intro hea
          exact hn.1 (by simpa [hea] using List.mem_map_of_mem (·.1) ht)
        simp [alookup, hne, ih hn.2 ht]

theorem alookup_graph {α β : Type} [DecidableEq α] (f : α → β) (l : List α)
    (a : α) (h : a ∈ l) :
    alookup (l.map (fun c => (c, f c))) a = some (f a) := by
  induction l with
  | nil => simp at h
  | cons c t ih =>
      by_cases hc : c = a
      · simp [alookup, hc]
      · rcases List.mem_cons.mp h with h1 | h2
        · exact absurd h1.symm hc
        · simp [alookup, hc, ih h2]

theorem alookup_map_values {α β γ : Type} [DecidableEq α]
    (σ : β → γ) (l : List (α × β)) (a : α) :
    alookup (l.map (fun e => (e.1, σ e.2))) a = (alookup l a).map σ := by
  induction l with
  | nil => simp [alookup]
  | cons e t ih =>
      by_cases he : e.1 = a
      · simp [alookup, he]
      · simp [alookup, he, ih]

theorem dictInsert_not_mem {α β : Type} [DecidableEq α] {l : List (α × β)}
    {a : α} (b : β) (h : alookup l a = none) :
    dictInsert l a b = l ++ [(a, b)] := by
  simp [dictInsert, h]

theorem mem_dictInsert {α β : Type} [DecidableEq α] {l : List (α × β)}
    {a : α} {b : β} {e : α × β} (h : e ∈ dictInsert l a b) :
    e ∈ l ∨ e = (a, b) := by
  by_cases hs : (alookup l a).isSome
  · simp only [dictInsert, hs, if_true] at h
    rcases List.mem_map.mp h with ⟨e0, he0, heq⟩
    by_cases h0 : e0.1 = a
    · right
      rw [← heq]
      simp [h0]
    · left
      rw [← heq]
      simpa [h0] using he0
  · simp only [dictInsert, hs, if_false] at h
    rcases List.mem_append.mp h with h1 | h2
    · exact Or.inl h1
    · exact Or.inr (by simpa using h2)

theorem dictInsertAll_append {α β : Type} [DecidableEq α] (d : List (α × β))
    (es1 es2 : List (α × β)) :
    dictInsertAll d (es1 ++ es2) = dictInsertAll (dictInsertAll d es1) es2 :=
  List.foldl_append ..

theorem mem_dictInsertAll {α β : Type} [DecidableEq α] {d es : List (α × β)}
    {e : α × β} (h : e ∈ dictInsertAll d es) : e ∈ d ∨ e ∈ es := by
  induction es generalizing d with
  | nil => exact Or.inl h
  | cons e0 t ih =>
      rcases ih (d := dictInsert d e0.1 e0.2) h with h1 | h2
      · rcases mem_dictInsert h1 with h3 | h4
        · exact Or.inl h3
        · exact Or.inr (by simp [h4])
      · exact Or.inr (List.mem_cons_of_mem _ h2)

theorem dictInsertAll_nodup {α β : Type} [DecidableEq α] (d es : List (α × β))
    (h : ((d ++ es).map (·.1)).Nodup) : dictInsertAll d es = d ++ es := by
  induction es generalizing d with
  | nil => simp [dictInsertAll]
  | cons e t ih =>
      have hd : alookup d e.1 = none := by
        rcases ho : alookup d e.1 with _ | b
        · rfl
        · exfalso
          have hmem : e.1 ∈ d.map (·.1) :=
            alookup_isSome_iff.mp (by simp [ho])
          have := (List.nodup_append.mp (by simpa using h)).2.2
          exact this hmem (by simp)
      have step : dictInsert d e.1 e.2 = d ++ [e] := by
        simpa using dictInsert_not_mem e.2 hd
      have : dictInsertAll d (e :: t) = dictInsertAll (d ++ [e]) t := by
        simp only [dictInsertAll, List.foldl_cons, step]
      rw [this, ih (d ++ [e]) (by simpa using h)]
      simp

theorem alookup_overwrite_ne {α β : Type} [DecidableEq α] (l : List (α × β))
    {k a : α} (v : β) (hk : k ≠ a) :
    alookup (l.map (fun e => if e.1 = k then (k, v) else e)) a = alookup l a := by
  induction l with
  | nil => rfl
  | cons e0 t0 ih =>
      by_cases h1 : e0.1 = k
      · have h0 : ¬ e0.1 = a := fun hc => hk (by rw [← h1, hc])
        simp [alookup, h1, h0, hk, ih]
      · by_cases h0 : e0.1 = a
        · simp [alookup, h1, h0, Ne.symm hk]
        · simp [alookup, h1, h0, ih]

theorem alookup_dictInsert_ne {α β : Type} [DecidableEq α] (l : List (α × β))
    {k a : α} (v : β) (hk : k ≠ a) :
    alookup (dictInsert l k v) a = alookup l a := by
  by_cases hs : (alookup l k).isSome
  · simp only [dictInsert, hs, if_true]
    exact alookup_overwrite_ne l v hk
  · simp only [dictInsert]
    rw [if_neg hs]
    rcases hl : alookup l a with _ | b
    · rw [alookup_append_right _ hl]
      simp [alookup, hk]
    · exact alookup_append_left hl

theorem alookup_dictInsertAll_of_not_key {α β : Type} [DecidableEq α]
    {d : List (α × β)} (es : List (α × β)) {a : α}
    (h : a ∉ es.map (·.1)) : alookup (dictInsertAll d es) a = alookup d a := by
  induction es generalizing d with
  | nil => rfl
  | cons e t ih =>
      have he : e.1 ≠ a := fun hc => h (by simp [hc])
      have ht : a ∉ t.map (·.1) := fun hc => h (by simp [hc])
      show alookup (dictInsertAll (dictInsert d e.1 e.2) t) a = _
      rw [ih ht, alookup_dictInsert_ne _ _ he]

/-! ## The BFS loop invariant -/

/-- Characterization of one pass of the inner child loop: some sublist `news`
of the children (those not yet in `path_to_root`, first occurrences only) is
recorded with path `pa ++ [c]` and appended to the queue. -/
theorem visitChildren_spec (pa : List CRef) (cs : List CRef)
    (p : List (CRef × List CRef)) (q : List CRef) :
    ∃ news : List CRef,
      visitChildren pa cs p q =
        (p ++ news.map (fun c => (c, pa ++ [c])), q ++ news) ∧
      (∀ c ∈ news, c ∈ cs) ∧ news.Nodup ∧
      (∀ c ∈ news, alookup p c = none) ∧
      (∀ c ∈ cs, c ∈ p.map (·.1) ∨ c ∈ news) := by
  induction cs generalizing p q with
  | nil => exact ⟨[], by simp [visitChildren], by simp, by simp, by simp, by simp⟩
  | cons c cs ih =>
      have hstep : visitChildren pa (c :: cs) p q =
          (cs.foldl (fun st c =>
            if (alookup st.1 c).isSome then st
            else (st.1 ++ [(c, pa ++ [c])], st.2 ++ [c]))
            (if (alookup p c).isSome then (p, q)
             else (p ++ [(c, pa ++ [c])], q ++ [c]))) := rfl
      by_cases hc : (alookup p c).isSome
      · obtain ⟨news, h1, h2, h3, h4, h5⟩ := ih p q
        refine ⟨news, ?_, fun c' h => List.mem_cons_of_mem _ (h2 c' h), h3, h4, ?_⟩
        · rw [hstep, if_pos hc]
          exact h1
        · intro c' hc'
          rcases List.mem_cons.mp hc' with h | h
          · exact Or.inl (h ▸ alookup_isSome_iff.mp hc)
          · exact h5 c' h
      · obtain ⟨news, h1, h2, h3, h4, h5⟩ := ih (p ++ [(c, pa ++ [c])]) (q ++ [c])
        have hlc : alookup (p ++ [(c, pa ++ [c])]) c = some (pa ++ [c]) := by
          rw [alookup_append_right _ (Option.not_isSome_iff_eq_none.mp hc)]
          simp [alookup]
        have hcnotnew : c ∉ news := by
          intro hmem
          rw [h4 c hmem] at hlc
          exact Option.noConfusion hlc
        refine ⟨c :: news, ?_, ?_, ?_, ?_, ?_⟩
        · rw [hstep, if_neg hc]
          show visitChildren pa cs (p ++ [(c, pa ++ [c])]) (q ++ [c]) = _
          rw [h1]
          simp
        · intro c' h
          rcases List.mem_cons.mp h with h | h
          · exact h ▸ List.mem_cons_self _ _
          · exact List.mem_cons_of_mem _ (h2 c' h)
        · exact List.nodup_cons.mpr ⟨hcnotnew, h3⟩
        · intro c' h
          rcases List.mem_cons.mp h with h | h
          · exact h ▸ Option.not_isSome_iff_eq_none.mp hc
          · rcases hl : alookup p c' with _ | b
            · rfl
            · exfalso
              have := @alookup_append_left _ _ _ _ [(c, pa ++ [c])] _ _ hl
              rw [h4 c' h] at this
              exact Option.noConfusion this
        · intro c' hc'
          rcases List.mem_cons.mp hc' with h | h
          · exact Or.inr (h ▸ List.mem_cons_self _ _)
          · rcases h5 c' h with h | h
            · rcases List.mem_map.mp h with ⟨e, he, hee⟩
              rcases List.mem_append.mp he with h6 | h6
              · exact Or.inl (hee ▸ List.mem_map_of_mem _ h6)
              · simp only [List.mem_singleton] at h6
                refine Or.inr ?_
                rw [← hee, h6]
                exact List.mem_cons_self _ _
            · exact Or.inr (List.mem_cons_of_mem _ h)

/-- Every dependency reference of any object is in `allDeps`. -/
theorem children_sub_allDeps (g : Graph) (r : CRef) :
    ∀ c ∈ children g r, c ∈ allDeps g := by
  intro c hc
  unfold children Graph.obj at hc
  by_cases h : r.ref < g.objs.length
  · rw [List.getD_eq_getElem g.objs defaultObj h] at hc
    exact List.mem_flatten.mpr ⟨(g.objs[r.ref]).deps,
      List.mem_map_of_mem _ (g.objs.getElem_mem h), hc⟩
  · rw [List.getD_eq_default g.objs defaultObj (Nat.le_of_not_lt h)] at hc
    simp [defaultObj] at hc

theorem alookup_append_stable {α β : Type} [DecidableEq α]
    {p : List (α × β)} (l2 : List (α × β)) {x : α} (hx : x ∈ p.map (·.1)) :
    alookup (p ++ l2) x = alookup p x := by
  rcases Option.isSome_iff_exists.mp (alookup_isSome_iff.mpr hx) with ⟨b, hb⟩
  rw [hb, alookup_append_left hb]

theorem recLen_append_stable {p l2 : List (CRef × List CRef)} {x : CRef}
    (hx : x ∈ p.map (·.1)) : recLen (p ++ l2) x = recLen p x := by
  unfold recLen recPath
  rw [alookup_append_stable l2 hx]

theorem alookup_news {p : List (CRef × List CRef)} {news : List CRef}
    {pa : List CRef} {c : CRef} (hc : c ∈ news) (hnone : alookup p c = none) :
    alookup (p ++ news.map (fun c => (c, pa ++ [c]))) c = some (pa ++ [c]) := by
  rw [alookup_append_right _ hnone]
  exact alookup_graph _ _ _ hc

theorem keys_news (news : List CRef) (pa : List CRef) :
    (news.map (fun c => (c, pa ++ [c]))).map (·.1) = news := by
  induction news with
  | nil => rfl
  | cons c t ih => simp [ih]

/-- One iteration of the `while to_visit:` loop preserves the invariant. -/
theorem bfs_step (g : Graph) (cur : CRef) (rest s : List CRef)
    (p : List (CRef × List CRef)) (inv : BFSInv g (cur :: rest) s p)
    (fuel : Nat) :
    ∃ news : List CRef,
      bfsAux g (fuel + 1) (cur :: rest) s p =
        bfsAux g fuel (rest ++ news) (s ++ [cur])
          (p ++ news.map (fun c => (c, recPath p cur ++ [c]))) ∧
      BFSInv g (rest ++ news) (s ++ [cur])
        (p ++ news.map (fun c => (c, recPath p cur ++ [c]))) := by
  obtain ⟨news, h1, h2, h3, h4, h5⟩ :=
    visitChildren_spec (recPath p cur) (children g cur) p rest
  have hcurk : cur ∈ p.map (·.1) := by
    rw [inv.keysEq]
    simp
  have hpa : alookup p cur = some (recPath p cur) := by
    rcases Option.isSome_iff_exists.mp (alookup_isSome_iff.mpr hcurk) with ⟨b, hb⟩
    rw [hb]
    simp [recPath, hb]
  have hpath : ReachPath g cur (recPath p cur) :=
    inv.validPaths (cur, recPath p cur) (alookup_mem hpa)
  set pa := recPath p cur with hpadef
  set f : CRef → CRef × List CRef := fun c => (c, pa ++ [c]) with hfdef
  set p' := p ++ news.map f with hpdef
  have hkeys' : p'.map (·.1) = p.map (·.1) ++ news := by
    rw [hpdef, List.map_append, keys_news]
  have hnotin : ∀ c ∈ news, c ∉ p.map (·.1) := by
    intro c hc hmem
    rcases Option.isSome_iff_exists.mp (alookup_isSome_iff.mpr hmem) with ⟨b, hb⟩
    rw [h4 c hc] at hb
    exact Option.noConfusion hb
  -- lookup and length transfer to the extended table
  have hstab : ∀ x ∈ p.map (·.1), recLen p' x = recLen p x := by
    intro x hx
    exact recLen_append_stable hx
  have hnews_len : ∀ c ∈ news, recLen p' c = pa.length + 1 := by
    intro c hc
    unfold recLen recPath
    rw [alookup_news hc (h4 c hc)]
    simp
  -- length bounds around the pivot `cur`
  have hs_le : ∀ b ∈ s, recLen p b ≤ recLen p cur := by
    intro b hb
    exact (List.pairwise_append.mp inv.sorted).2.2 b hb cur (List.mem_cons_self _ _)
  have hrest_ge : ∀ b ∈ rest, recLen p cur ≤ recLen p b := by
    intro b hb
    exact (List.pairwise_cons.mp (List.pairwise_append.mp inv.sorted).2.1).1 b hb
  have hrest_le : ∀ b ∈ rest, recLen p b ≤ recLen p cur + 1 := by
    intro b hb
    exact inv.span b (List.mem_cons_of_mem _ hb) cur (List.mem_cons_self _ _)
  have hold_le : ∀ b ∈ s ++ cur :: rest, recLen p b ≤ recLen p cur + 1 := by
    intro b hb
    rcases List.mem_append.mp hb with h | h
    · exact Nat.le_succ_of_le (hs_le b h)
    · rcases List.mem_cons.mp h with h | h
      · exact h ▸ Nat.le_succ _
      · exact hrest_le b h
  have hcurlen : recLen p cur = pa.length := rfl
  refine ⟨news, ?_, ?_⟩
  · show bfsAux g fuel (visitChildren pa (children g cur) p rest).2
      (s ++ [cur]) (visitChildren pa (children g cur) p rest).1 = _
    rw [h1]
  · constructor
    · rw [hkeys']
      exact List.nodup_append.mpr ⟨inv.keysNodup, h3, fun a ha hb => hnotin a hb ha⟩
    · rw [hkeys', inv.keysEq]
      simp
    · intro e he
      rcases List.mem_append.mp he with h | h
      · exact inv.validPaths e h
      · rcases List.mem_map.mp h with ⟨c, hc, hce⟩
        rw [← hce]
        exact ReachPath.cons hpath (h2 c hc)
    · have hpw : List.Pairwise (fun a b => recLen p' a ≤ recLen p' b)
          (s ++ cur :: rest) := by
        refine List.Pairwise.imp_of_mem ?_ inv.sorted
        intro a b ha hb hle
        rw [hstab a (by rw [inv.keysEq]; exact ha), hstab b (by rw [inv.keysEq]; exact hb)]
        exact hle
      have hnewpw : List.Pairwise (fun a b => recLen p' a ≤ recLen p' b) news := by
        refine List.pairwise_of_forall_mem_list ?_
        intro a ha b hb
        rw [hnews_len a ha, hnews_len b hb]
      have hcross : ∀ a ∈ s ++ cur :: rest, ∀ b ∈ news,
          recLen p' a ≤ recLen p' b := by
        intro a ha b hb
        rw [hstab a (by rw [inv.keysEq]; exact ha), hnews_len b hb]
        exact hold_le a ha
      have : List.Pairwise (fun a b => recLen p' a ≤ recLen p' b)
          ((s ++ cur :: rest) ++ news) :=
        List.pairwise_append.mpr ⟨hpw, hnewpw, hcross⟩
      have heq : (s ++ [cur]) ++ (rest ++ news) = (s ++ cur :: rest) ++ news := by
        simp
      rw [heq]
      exact this
    · intro a ha b hb
      rcases List.mem_append.mp ha with ha1 | ha1
      · rcases List.mem_append.mp hb with hb1 | hb1
        · rw [hstab a (by rw [inv.keysEq]; simp [ha1]),
            hstab b (by rw [inv.keysEq]; simp [hb1])]
          exact inv.span a (List.mem_cons_of_mem _ ha1) b (List.mem_cons_of_mem _ hb1)
        · rw [hstab a (by rw [inv.keysEq]; simp [ha1]), hnews_len b hb1]
          exact Nat.le_succ_of_le (hcurlen ▸ hrest_le a ha1)
      · rcases List.mem_append.mp hb with hb1 | hb1
        · rw [hnews_len a ha1, hstab b (by rw [inv.keysEq]; simp [hb1])]
          exact Nat.succ_le_succ (hrest_ge b hb1)
        · rw [hnews_len a ha1, hnews_len b hb1]
          exact Nat.le_succ _
    · intro a ha c hc
      rcases List.mem_append.mp ha with ha1 | ha1
      · obtain ⟨pc, hpc, hlen⟩ := inv.closed a ha1 c hc
        refine ⟨pc, alookup_append_left hpc, ?_⟩
        rw [hstab a (by rw [inv.keysEq]; simp [ha1])]
        exact hlen
      · simp only [List.mem_singleton] at ha1
        rw [ha1] at hc ⊢
        have hacur : recLen p' cur = pa.length := hstab cur hcurk
        rcases h5 c hc with hck | hcn
        · rcases Option.isSome_iff_exists.mp (alookup_isSome_iff.mpr hck) with ⟨pc, hpc⟩
          refine ⟨pc, alookup_append_left hpc, ?_⟩
          rw [hacur, ← hcurlen]
          have hlc : recLen p c = pc.length := by
            simp [recLen, recPath, hpc]
          rw [← hlc]
          have hmem : c ∈ s ++ cur :: rest := by
            rw [← inv.keysEq]
            exact hck
          exact hold_le c hmem
        · refine ⟨pa ++ [c], alookup_news hcn (h4 c hcn), ?_⟩
          rw [hacur]
          simp
    · exact alookup_append_left inv.rootRec
    · intro e he
      rcases List.mem_append.mp he with h | h
      · exact inv.inDeps e h
      · rcases List.mem_map.mp h with ⟨c, hc, hce⟩
        right
        rw [← hce]
        exact children_sub_allDeps g cur c (h2 c hc)

/-- `path_to_root` never holds more than one entry per possible reference. -/
theorem keys_card_bound (g : Graph) {q s : List CRef}
    {p : List (CRef × List CRef)} (inv : BFSInv g q s p) :
    p.length ≤ (allDeps g).length + 1 := by
  have h1 : p.length = (p.map (·.1)).length := (List.length_map _ _).symm
  have h2 : (p.map (·.1)).toFinset.card = (p.map (·.1)).length :=
    List.toFinset_card_of_nodup inv.keysNodup
  have h3 : (p.map (·.1)).toFinset ⊆ (rootRef g :: allDeps g).toFinset := by
    intro x hx
    rw [List.mem_toFinset] at hx ⊢
    rcases List.mem_map.mp hx with ⟨e, he, hee⟩
    rcases inv.inDeps e he with h | h
    · rw [← hee, h]
      exact List.mem_cons_self _ _
    · exact List.mem_cons_of_mem _ (hee ▸ h)
  calc p.length = (p.map (·.1)).toFinset.card := by rw [h2, ← h1]
    _ ≤ (rootRef g :: allDeps g).toFinset.card := Finset.card_le_card h3
    _ ≤ (rootRef g :: allDeps g).length := List.toFinset_card_le _
    _ = (allDeps g).length + 1 := by simp

/-- The fuelled loop reaches the empty queue from any invariant state, given
enough fuel, and the final state still satisfies the invariant. -/
theorem bfs_run (g : Graph) :
    ∀ fuel (q s : List CRef) (p : List (CRef × List CRef)), BFSInv g q s p →
    q.length + (allDeps g).length + 3 ≤ fuel + p.length →
    ∃ S P, bfsAux g fuel q s p = some (S, P) ∧ BFSInv g [] S P := by
  intro fuel
  induction fuel with
  | zero =>
      intro q s p inv hle
      exfalso
      have hbound := keys_card_bound g inv
      omega
  | succ fuel ih =>
      intro q s p inv hle
      match q, inv, hle with
      | [], inv, _ => exact ⟨s, p, rfl, inv⟩
      | cur :: rest, inv, hle =>
          obtain ⟨news, heq, inv'⟩ := bfs_step g cur rest s p inv fuel
          rw [heq]
          refine ih _ _ _ inv' ?_
          simp only [List.length_append, List.length_map, List.length_cons] at hle ⊢
          omega

/-- The initial state satisfies the invariant. -/
theorem bfsInv_init (g : Graph) :
    BFSInv g [rootRef g] [] [(rootRef g, [])] := by
  constructor
  · simp
  · simp
  · intro e he
    simp only [List.mem_singleton] at he
    rw [he]
    exact ReachPath.nil
  · simp
  · intro a ha b hb
    simp only [List.mem_singleton] at ha hb
    rw [ha, hb]
    exact Nat.le_succ _
  · intro a ha
    simp at ha
  · simp [alookup]
  · intro e he
    simp only [List.mem_singleton] at he
    rw [he]
    exact Or.inl rfl

/-- Termination: with fuel `bfsFuel g` the loop finishes on every graph, and
the invariant holds of the result with an empty queue. -/
theorem traversal_terminates (g : Graph) :
    bfsAux g (bfsFuel g) [rootRef g] [] [(rootRef g, [])] =
      some (bfs_sorted g, path_to_root g) ∧
    BFSInv g [] (bfs_sorted g) (path_to_root g) := by
  obtain ⟨S, P, hsome, hinv⟩ :=
    bfs_run g (bfsFuel g) _ _ _ (bfsInv_init g)
      (by simp only [bfsFuel, List.length_singleton]; omega)
  have hT : breadth_first_checkpointable_traversal g = (S, P) := by
    unfold breadth_first_checkpointable_traversal
    rw [hsome]
    rfl
  have h1 : bfs_sorted g = S := by rw [bfs_sorted, hT]
  have h2 : path_to_root g = P := by rw [path_to_root, hT]
  rw [h1, h2]
  exact ⟨hsome, hinv⟩

/-- The final invariant, packaged. -/
theorem final_inv (g : Graph) : BFSInv g [] (bfs_sorted g) (path_to_root g) :=
  (traversal_terminates g).2

/-- In the final `path_to_root`, every reference reachable by a path `pth` is
recorded with a path no longer than `pth` (closure lower bound). -/
theorem lower_bound (g : Graph) {r : CRef} {pth : List CRef}
    (h : ReachPath g r pth) :
    ∃ pr, alookup (path_to_root g) r = some pr ∧ pr.length ≤ pth.length := by
  induction h with
  | nil => exact ⟨[], (final_inv g).rootRec, by simp⟩
  | @cons r c pth hpre hc ih =>
      obtain ⟨pr', hl', hlen'⟩ := ih
      have hrS : r ∈ bfs_sorted g := by
        have hk : r ∈ (path_to_root g).map (·.1) :=
          List.mem_map_of_mem (·.1) (alookup_mem hl')
        rw [(final_inv g).keysEq] at hk
        simpa using hk
      obtain ⟨pc, hpc, hlenc⟩ := (final_inv g).closed r hrS c hc
      refine ⟨pc, hpc, ?_⟩
      have hr : recLen (path_to_root g) r = pr'.length := by
        simp [recLen, recPath, hl']
      rw [hr] at hlenc
      simp only [List.length_append, List.length_cons, List.length_nil]
      omega

/-- A reference appears in `bfs_sorted` exactly when it is reachable. -/
theorem mem_bfs_iff_reachable (g : Graph) (r : CRef) :
    r ∈ bfs_sorted g ↔ Reachable g r := by
  constructor
  · intro h
    have hk : r ∈ (path_to_root g).map (·.1) := by
      rw [(final_inv g).keysEq]
      simpa using h
    rcases Option.isSome_iff_exists.mp (alookup_isSome_iff.mpr hk) with ⟨pr, hpr⟩
    exact ⟨pr, (final_inv g).validPaths (r, pr) (alookup_mem hpr)⟩
  · rintro ⟨pth, hpth⟩
    obtain ⟨pr, hpr, _⟩ := lower_bound g hpth
    have hk : r ∈ (path_to_root g).map (·.1) :=
      List.mem_map_of_mem (·.1) (alookup_mem hpr)
    rw [(final_inv g).keysEq] at hk
    simpa using hk

/-- For every visited reference the recorded path is a genuine shortest path. -/
theorem recorded_shortest (g : Graph) {r : CRef} (h : r ∈ bfs_sorted g) :
    alookup (path_to_root g) r = some (pathOf g r) ∧
    ReachPath g r (pathOf g r) ∧
    ∀ q, ReachPath g r q → (pathOf g r).length ≤ q.length := by
  have hk : r ∈ (path_to_root g).map (·.1) := by
    rw [(final_inv g).keysEq]
    simpa using h
  rcases Option.isSome_iff_exists.mp (alookup_isSome_iff.mpr hk) with ⟨pr, hpr⟩
  have hself : pathOf g r = pr := by
    have hpr' : alookup (breadth_first_checkpointable_traversal g).2 r = some pr := hpr
    simp [pathOf, recPath, hpr']
  refine ⟨hself ▸ hpr, ?_, ?_⟩
  · rw [hself]
    exact (final_inv g).validPaths (r, pr) (alookup_mem hpr)
  · intro q hq
    obtain ⟨pr2, hpr2, hlen2⟩ := lower_bound g hq
    rw [hpr] at hpr2
    rw [hself, Option.some_inj.mp hpr2]
    exact hlen2

/-- `bfs_sorted` lists references in nondecreasing order of recorded-path
length. -/
theorem bfs_sorted_pairwise (g : Graph) :
    List.Pairwise (fun a b => (pathOf g a).length ≤ (pathOf g b).length)
      (bfs_sorted g) := by
  have := (final_inv g).sorted
  rw [List.append_nil] at this
  exact this

/-- `bfs_sorted` holds no duplicates. -/
theorem bfs_sorted_nodup (g : Graph) : (bfs_sorted g).Nodup := by
  have := (final_inv g).keysNodup
  rw [(final_inv g).keysEq, List.append_nil] at this
  exact this

/-! ## Fusion of the naming passes with their entry traces -/

theorem addOwned_eq (pre : String) (d : List (String × Nat))
    (ovs : List (String × Nat)) :
    addOwned pre d ovs =
      dictInsertAll d (ovs.map (fun ov => (keyOf pre ov.1, ov.2))) := by
  induction ovs generalizing d with
  | nil => rfl
  | cons ov t ih =>
      show addOwned pre (dictInsert d (keyOf pre ov.1) ov.2) t = _
      rw [ih]
      rfl

theorem foldl_insertAll_flatten {α : Type} (h : α → List (String × Nat)) :
    ∀ (l : List α) (d : List (String × Nat)),
    l.foldl (fun d x => dictInsertAll d (h x)) d =
      dictInsertAll d ((l.map h).flatten) := by
  intro l
  induction l with
  | nil => intro d; rfl
  | cons x t ih =>
      intro d
      show t.foldl _ (dictInsertAll d (h x)) = _
      rw [ih (dictInsertAll d (h x)), List.map_cons, List.flatten_cons,
        dictInsertAll_append]

theorem nonSlotDict_eq (g : Graph) :
    nonSlotDict g = dictInsertAll [] (nonSlotTrace g) := by
  unfold nonSlotDict nonSlotTrace
  have hfun : (fun (d : List (String × Nat)) (r : CRef) =>
      addOwned (name_from_path (pathOf g r)) d (g.obj r.ref).ownedVars) =
      fun d r => dictInsertAll d ((g.obj r.ref).ownedVars.map
        (fun ov => (keyOf (name_from_path (pathOf g r)) ov.1, ov.2))) :=
    funext fun d => funext fun r => addOwned_eq _ _ _
  rw [hfun]
  exact foldl_insertAll_flatten _ _ _

theorem addSlotEntries_eq (o : Obj) (sfx slot : String) :
    ∀ (snapshot d : List (String × Nat)),
    addSlotEntries o sfx slot snapshot d =
      dictInsertAll d (snapshot.filterMap (fun kv =>
        (o.getSlot kv.2 slot).map (fun sv => (kv.1 ++ "/" ++ sfx, sv)))) := by
  intro snapshot
  induction snapshot with
  | nil => intro d; rfl
  | cons kv t ih =>
      intro d
      cases hgs : o.getSlot kv.2 slot with
      | none =>
          show addSlotEntries o sfx slot (kv :: t) d = _
          rw [List.filterMap_cons]
          simp only [addSlotEntries, hgs, Option.map_none']
          exact ih d
      | some sv =>
          show addSlotEntries o sfx slot (kv :: t) d = _
          rw [List.filterMap_cons]
          simp only [addSlotEntries, hgs, Option.map_some']
          rw [ih (dictInsert d (kv.1 ++ "/" ++ sfx) sv)]
          rfl

theorem processSlots_ok (g : Graph) (r : CRef) (snapshot : List (String × Nat)) :
    ∀ (slots : List String) (d : List (String × Nat)),
    (∀ s ∈ slots, pyValidLocalName s) →
    processSlots g r snapshot (g.obj r.ref) slots d =
      .ok (dictInsertAll d (slotEntriesFor g r snapshot slots)) := by
  intro slots
  induction slots with
  | nil => intro d _; rfl
  | cons slot rest ih =>
      intro d hv
      have hvs : pyValidLocalName slot := hv slot (List.mem_cons_self _ _)
      show (if pyValidLocalName slot then _ else _) = _
      rw [if_pos hvs, ih _ (fun s hs => hv s (List.mem_cons_of_mem _ hs)),
        addSlotEntries_eq]
      unfold slotEntriesFor
      rw [List.map_cons, List.flatten_cons, dictInsertAll_append]

theorem processSlots_err_iff (g : Graph) (r : CRef)
    (snapshot : List (String × Nat)) (o : Obj) :
    ∀ (slots : List String) (d : List (String × Nat)),
    isErr (processSlots g r snapshot o slots d) = true ↔
      ∃ s ∈ slots, ¬ pyValidLocalName s := by
  intro slots
  induction slots with
  | nil =>
      intro d
      simp [processSlots, isErr]
  | cons slot rest ih =>
      intro d
      by_cases hvs : pyValidLocalName slot
      · show isErr (if pyValidLocalName slot then _ else _) = true ↔ _
        rw [if_pos hvs, ih]
        constructor
        · rintro ⟨s, hs, hv⟩
          exact ⟨s, List.mem_cons_of_mem _ hs, hv⟩
        · rintro ⟨s, hs, hv⟩
          rcases List.mem_cons.mp hs with h | h
          · exact absurd (h ▸ hvs) hv
          · exact ⟨s, h, hv⟩
      · show isErr (if pyValidLocalName slot then _ else _) = true ↔ _
        rw [if_neg hvs]
        exact ⟨fun _ => ⟨slot, List.mem_cons_self _ _, hvs⟩, fun _ => rfl⟩

theorem slotPhase_ok (g : Graph) (snapshot : List (String × Nat)) :
    ∀ (l : List CRef) (d : List (String × Nat)),
    (∀ r ∈ l, (g.obj r.ref).isOptimizer →
      ∀ s ∈ (g.obj r.ref).slotNames, pyValidLocalName s) →
    slotPhase g snapshot l d =
      .ok (dictInsertAll d (slotTrace g snapshot l)) := by
  intro l
  induction l with
  | nil => intro d _; rfl
  | cons r rest ih =>
      intro d hv
      show (if (g.obj r.ref).isOptimizer then _ else _) = _
      by_cases hopt : (g.obj r.ref).isOptimizer
      · rw [if_pos hopt,
          processSlots_ok g r snapshot (g.obj r.ref).slotNames d
            (hv r (List.mem_cons_self _ _) hopt)]
        show slotPhase g snapshot rest _ = _
        rw [ih _ (fun r' hr' => hv r' (List.mem_cons_of_mem _ hr'))]
        unfold slotTrace
        rw [List.map_cons, List.flatten_cons, if_pos hopt, dictInsertAll_append]
      · rw [if_neg hopt, ih _ (fun r' hr' => hv r' (List.mem_cons_of_mem _ hr'))]
        unfold slotTrace
        rw [List.map_cons, List.flatten_cons, if_neg hopt]
        rfl

theorem slotPhase_err_iff (g : Graph) (snapshot : List (String × Nat)) :
    ∀ (l : List CRef) (d : List (String × Nat)),
    isErr (slotPhase g snapshot l d) = true ↔
      ∃ r ∈ l, (g.obj r.ref).isOptimizer ∧
        ∃ s ∈ (g.obj r.ref).slotNames, ¬ pyValidLocalName s := by
  intro l
  induction l with
  | nil =>
      intro d
      simp [slotPhase, isErr]
  | cons r rest ih =>
      intro d
      show isErr (if (g.obj r.ref).isOptimizer then _ else _) = true ↔ _
      by_cases hopt : (g.obj r.ref).isOptimizer
      · rw [if_pos hopt]
        cases hps : processSlots g r snapshot (g.obj r.ref)
            (g.obj r.ref).slotNames d with
        | ok d' =>
            have hnoerr : ¬ ∃ s ∈ (g.obj r.ref).slotNames, ¬ pyValidLocalName s := by
              rw [← processSlots_err_iff g r snapshot (g.obj r.ref)
                (g.obj r.ref).slotNames d, hps]
              simp [isErr]
            show isErr (slotPhase g snapshot rest d') = true ↔ _
            rw [ih]
            constructor
            · rintro ⟨r', hr', h⟩
              exact ⟨r', List.mem_cons_of_mem _ hr', h⟩
            · rintro ⟨r', hr', hro, h⟩
              rcases List.mem_cons.mp hr' with hh | hh
              · exact absurd (hh ▸ h) hnoerr
              · exact ⟨r', hh, hro, h⟩
        | error e =>
            have herr : ∃ s ∈ (g.obj r.ref).slotNames, ¬ pyValidLocalName s := by
              rw [← processSlots_err_iff g r snapshot (g.obj r.ref)
                (g.obj r.ref).slotNames d, hps]
              rfl
            show isErr (Except.error e) = true ↔ _
            exact ⟨fun _ => ⟨r, List.mem_cons_self _ _, hopt, herr⟩, fun _ => rfl⟩
      · rw [if_neg hopt, ih]
        constructor
        · rintro ⟨r', hr', h⟩
          exact ⟨r', List.mem_cons_of_mem _ hr', h⟩
        · rintro ⟨r', hr', hro, h⟩
          rcases List.mem_cons.mp hr' with hh | hh
          · exact absurd (hh ▸ hro) hopt
          · exact ⟨r', hh, hro, h⟩

theorem exists_error_iff_isErr {ε α : Type} (x : Except ε α) :
    (∃ e, x = .error e) ↔ isErr x = true := by
  cases x with
  | ok a => simp [isErr]
  | error e => simp [isErr]

/-- `_name_variables` raises `ValueError` exactly when some reachable
optimizer has a slot name with invalid characters. -/
theorem name_variables_err_iff (g : Graph) :
    (∃ e, name_variables g = .error e) ↔
      ∃ r ∈ bfs_sorted g, (g.obj r.ref).isOptimizer ∧
        ∃ s ∈ (g.obj r.ref).slotNames, ¬ pyValidLocalName s := by
  rw [exists_error_iff_isErr]
  exact slotPhase_err_iff g (nonSlotDict g) (bfs_sorted g) (nonSlotDict g)

/-- Keys of the phase-1 trace are an initial segment of all generated keys. -/
theorem nonSlotTrace_keys_nodup (g : Graph) (hnd : NodupKeys g) :
    ((nonSlotTrace g).map (·.1)).Nodup := by
  have := hnd
  unfold NodupKeys allKeysTrace at this
  rw [List.map_append] at this
  exact (List.nodup_append.mp this).1

/-- Under distinct keys, the phase-1 dict equals the phase-1 trace. -/
theorem nonSlotDict_eq_trace (g : Graph) (hnd : NodupKeys g) :
    nonSlotDict g = nonSlotTrace g := by
  rw [nonSlotDict_eq]
  have h := dictInsertAll_nodup ([] : List (String × Nat))
    (nonSlotTrace g) (by simpa using nonSlotTrace_keys_nodup g hnd)
  simpa using h

/-- Under distinct keys and valid slot names, `_name_variables` returns
exactly the trace of generated entries, in order. -/
theorem name_variables_ok (g : Graph) (hnd : NodupKeys g)
    (hv : ∀ r ∈ bfs_sorted g, (g.obj r.ref).isOptimizer →
      ∀ s ∈ (g.obj r.ref).slotNames, pyValidLocalName s) :
    name_variables g = .ok (allKeysTrace g) := by
  show slotPhase g (nonSlotDict g) (bfs_sorted g) (nonSlotDict g) = _
  rw [nonSlotDict_eq_trace g hnd, slotPhase_ok g (nonSlotTrace g) (bfs_sorted g)
    (nonSlotTrace g) hv]
  have h := dictInsertAll_nodup (nonSlotTrace g)
    (slotTrace g (nonSlotTrace g) (bfs_sorted g)) (by
      have := hnd
      unfold NodupKeys allKeysTrace at this
      exact (by simpa using this))
  rw [h]
  rfl

/-! ## Shortest object paths and trace membership -/

theorem pairwise_filter_head {α : Type} {R : α → α → Prop} {l : List α}
    (hp : List.Pairwise R l) {P : α → Bool} {x : α} {xs : List α}
    (hf : l.filter P = x :: xs) (hrefl : R x x) :
    ∀ y ∈ l, P y → R x y := by
  intro y hy hPy
  have hyf : y ∈ x :: xs := by
    rw [← hf]
    exact List.mem_filter.mpr ⟨hy, hPy⟩
  rcases List.mem_cons.mp hyf with h | h
  · exact h ▸ hrefl
  · have hpf : List.Pairwise R (x :: xs) := hf ▸ hp.filter P
    exact (List.pairwise_cons.mp hpf).1 y h

/-- For a reachable object, the earliest `bfs_sorted` reference to it carries
a path that is shortest among all object paths to it. -/
theorem shortest_object_path (g : Graph) {i : Nat} (h : ObjReachable g i) :
    ∃ r, r ∈ bfs_sorted g ∧ r.ref = i ∧ ObjPath g i (pathOf g r) ∧
      ∀ q, ObjPath g i q → (pathOf g r).length ≤ q.length := by
  obtain ⟨p0, r0, hr0ref, hr0path⟩ := h
  have hr0mem : r0 ∈ bfs_sorted g :=
    (mem_bfs_iff_reachable g r0).mpr ⟨p0, hr0path⟩
  have hr0f : r0 ∈ (bfs_sorted g).filter (fun r => decide (r.ref = i)) :=
    List.mem_filter.mpr ⟨hr0mem, by simp [hr0ref]⟩
  rcases hflt : (bfs_sorted g).filter (fun r => decide (r.ref = i)) with _ | ⟨x, xs⟩
  · rw [hflt] at hr0f
    simp at hr0f
  · have hx : x ∈ (bfs_sorted g).filter (fun r => decide (r.ref = i)) := by
      rw [hflt]
      exact List.mem_cons_self _ _
    have hxmem : x ∈ bfs_sorted g := (List.mem_filter.mp hx).1
    have hxref : x.ref = i := by
      have := (List.mem_filter.mp hx).2
      simpa using this
    obtain ⟨hlx, hpx, hminx⟩ := recorded_shortest g hxmem
    refine ⟨x, hxmem, hxref, ⟨x, hxref, hpx⟩, ?_⟩
    rintro q ⟨r', hr'ref, hq⟩
    have hr'mem : r' ∈ bfs_sorted g := (mem_bfs_iff_reachable g r').mpr ⟨q, hq⟩
    obtain ⟨_, _, hminr'⟩ := recorded_shortest g hr'mem
    have hxr' : (pathOf g x).length ≤ (pathOf g r').length :=
      pairwise_filter_head (bfs_sorted_pairwise g) hflt (Nat.le_refl _) r' hr'mem
        (by simp [hr'ref])
    exact Nat.le_trans hxr' (hminr' q hq)

theorem mem_nonSlotTrace (g : Graph) {r : CRef} (hr : r ∈ bfs_sorted g)
    {nm : String} {vid : Nat} (hov : (nm, vid) ∈ (g.obj r.ref).ownedVars) :
    (keyOf (name_from_path (pathOf g r)) nm, vid) ∈ nonSlotTrace g := by
  show _ ∈ ((bfs_sorted g).map (fun r => (g.obj r.ref).ownedVars.map
    (fun ov => (keyOf (name_from_path (pathOf g r)) ov.1, ov.2)))).flatten
  refine List.mem_flatten.mpr ⟨_, List.mem_map_of_mem _ hr, ?_⟩
  have := List.mem_map_of_mem
    (fun ov : String × Nat => (keyOf (name_from_path (pathOf g r)) ov.1, ov.2)) hov
  simpa using this

theorem mem_slotTrace (g : Graph) (snapshot : List (String × Nat))
    {l : List CRef} {r : CRef} (hr : r ∈ l)
    (hopt : (g.obj r.ref).isOptimizer)
    {slot : String} (hs : slot ∈ (g.obj r.ref).slotNames)
    {k : String} {v sv : Nat} (hkv : (k, v) ∈ snapshot)
    (hgs : (g.obj r.ref).getSlot v slot = some sv) :
    (k ++ "/" ++ suffixFor g r slot, sv) ∈ slotTrace g snapshot l := by
  unfold slotTrace
  refine List.mem_flatten.mpr ⟨_, List.mem_map_of_mem _ hr, ?_⟩
  rw [if_pos hopt]
  unfold slotEntriesFor
  refine List.mem_flatten.mpr ⟨_, List.mem_map_of_mem _ hs, ?_⟩
  refine List.mem_filterMap.mpr ⟨(k, v), hkv, ?_⟩
  rw [hgs]
  rfl

theorem gCex_paths : ∀ r p, ReachPath gCex r p →
    (r = rootRef gCex ∧ p = []) ∨ (r = gCexR1 ∧ p = [gCexR1]) ∨
    (r = gCexR2 ∧ p = [gCexR2]) := by
  intro r p h
  induction h with
  | nil => exact Or.inl ⟨rfl, rfl⟩
  | @cons r c pth hpre hc ih =>
      rcases ih with ⟨hr, hp⟩ | ⟨hr, hp⟩ | ⟨hr, hp⟩
      · rw [hr] at hc
        have hch : children gCex (rootRef gCex) = [gCexR1, gCexR2] := rfl
        rw [hch] at hc
        rcases List.mem_cons.mp hc with h | h
        · exact Or.inr (Or.inl ⟨h, by rw [hp, h]; rfl⟩)
        · have h2 : c = gCexR2 := by simpa using h
          exact Or.inr (Or.inr ⟨h2, by rw [hp, h2]; rfl⟩)
      · rw [hr] at hc
        have hch : children gCex gCexR1 = [] := rfl
        rw [hch] at hc
        simp at hc
      · rw [hr] at hc
        have hch : children gCex gCexR2 = [] := rfl
        rw [hch] at hc
        simp at hc

theorem gCex_reach1 : ObjReachable gCex 1 :=
  ⟨[gCexR1], gCexR1, rfl, ReachPath.cons ReachPath.nil (by decide)⟩

section Renaming

variable {ρ σ : Nat → Nat} {g1 g2 : Graph}

theorem renRef_inj (hiso : StructuralIso ρ σ g1 g2) {a b : CRef}
    (ha : a.ref < g1.objs.length) (hb : b.ref < g1.objs.length) :
    renRef ρ a = renRef ρ b ↔ a = b := by
  constructor
  · intro h
    have h1 := congrArg CRef.name h
    have h2 := congrArg CRef.local_uid h
    have h3 := congrArg CRef.ref h
    simp only [renRef] at h1 h2 h3
    have h4 := hiso.2.2.2.2.1 a.ref ha b.ref hb h3
    cases a
    cases b
    simp_all
  · intro h
    rw [h]

theorem alookup_renEntries (hiso : StructuralIso ρ σ g1 g2)
    {p : List (CRef × List CRef)} (hp : ∀ e ∈ p, e.1.ref < g1.objs.length)
    {x : CRef} (hx : x.ref < g1.objs.length) :
    alookup (p.map (renEntry ρ)) (renRef ρ x) =
      (alookup p x).map (List.map (renRef ρ)) := by
  induction p with
  | nil => rfl
  | cons e t ih =>
      have he : e.1.ref < g1.objs.length := hp e (List.mem_cons_self _ _)
      by_cases heq : e.1 = x
      · have : renRef ρ e.1 = renRef ρ x := by rw [heq]
        simp [alookup, renEntry, this, heq]
      · have : ¬ renRef ρ e.1 = renRef ρ x := fun hc =>
          heq ((renRef_inj hiso he hx).mp hc)
        simp only [List.map_cons, alookup, renEntry, this, if_false, heq]
        exact ih (fun e' he' => hp e' (List.mem_cons_of_mem _ he'))

theorem children_ren (hiso : StructuralIso ρ σ g1 g2) {x : CRef}
    (hx : x.ref < g1.objs.length) :
    children g2 (renRef ρ x) = (children g1 x).map (renRef ρ) := by
  show (g2.obj (ρ x.ref)).deps = _
  rw [hiso.2.2.2.2.2.1 x.ref hx]
  rfl

theorem children_valid (hwf : WFGraph g1) {x : CRef}
    (hx : x.ref < g1.objs.length) :
    ∀ c ∈ children g1 x, c.ref < g1.objs.length := by
  intro c hc
  unfold children Graph.obj at hc
  rw [List.getD_eq_getElem g1.objs defaultObj hx] at hc
  exact hwf.2 _ (g1.objs.getElem_mem hx) c hc

theorem visitChildren_cons (pa : List CRef) (c : CRef) (cs : List CRef)
    (p : List (CRef × List CRef)) (q : List CRef) :
    visitChildren pa (c :: cs) p q =
      if (alookup p c).isSome then visitChildren pa cs p q
      else visitChildren pa cs (p ++ [(c, pa ++ [c])]) (q ++ [c]) := by
  by_cases hs : (alookup p c).isSome
  · simp [visitChildren, hs]
  · simp [visitChildren, hs]

theorem visitChildren_ren (hiso : StructuralIso ρ σ g1 g2) (pa : List CRef) :
    ∀ (cs : List CRef) (p : List (CRef × List CRef)) (q : List CRef),
    (∀ e ∈ p, e.1.ref < g1.objs.length) →
    (∀ c ∈ cs, c.ref < g1.objs.length) →
    visitChildren (pa.map (renRef ρ)) (cs.map (renRef ρ))
        (p.map (renEntry ρ)) (q.map (renRef ρ)) =
      ((visitChildren pa cs p q).1.map (renEntry ρ),
       (visitChildren pa cs p q).2.map (renRef ρ)) := by
  intro cs
  induction cs with
  | nil => intro p q _ _; rfl
  | cons c cs ih =>
      intro p q hp hcs
      have hc : c.ref < g1.objs.length := hcs c (List.mem_cons_self _ _)
      have hcs' : ∀ c' ∈ cs, c'.ref < g1.objs.length :=
        fun c' h => hcs c' (List.mem_cons_of_mem _ h)
      have hlook := alookup_renEntries hiso hp hc
      rw [List.map_cons, visitChildren_cons, visitChildren_cons]
      by_cases hs : (alookup p c).isSome
      · have hs2 : (alookup (p.map (renEntry ρ)) (renRef ρ c)).isSome := by
          rw [hlook]
          rcases Option.isSome_iff_exists.mp hs with ⟨b, hb⟩
          simp [hb]
        rw [if_pos hs2, if_pos hs]
        exact ih p q hp hcs'
      · have hs2 : ¬ (alookup (p.map (renEntry ρ)) (renRef ρ c)).isSome := by
          rw [hlook, Option.not_isSome_iff_eq_none.mp hs]
          simp
        rw [if_neg hs2, if_neg hs]
        have e1 : p.map (renEntry ρ) ++
            [(renRef ρ c, pa.map (renRef ρ) ++ [renRef ρ c])] =
            (p ++ [(c, pa ++ [c])]).map (renEntry ρ) := by
          simp [renEntry]
        have e2 : q.map (renRef ρ) ++ [renRef ρ c] = (q ++ [c]).map (renRef ρ) := by
          simp
        rw [e1, e2]
        refine ih _ _ ?_ hcs'
        intro e he
        rcases List.mem_append.mp he with h | h
        · exact hp e h
        · simp only [List.mem_singleton] at h
          rw [h]
          exact hc

theorem bfsAux_cons (g : Graph) (fuel : Nat) (cur : CRef) (rest s : List CRef)
    (p : List (CRef × List CRef)) :
    bfsAux g (fuel + 1) (cur :: rest) s p =
      bfsAux g fuel (visitChildren (recPath p cur) (children g cur) p rest).2
        (s ++ [cur]) (visitChildren (recPath p cur) (children g cur) p rest).1 :=
  rfl

theorem bfsAux_ren (hiso : StructuralIso ρ σ g1 g2) :
    ∀ (fuel : Nat) (q s : List CRef) (p : List (CRef × List CRef)),
    (∀ x ∈ q, x.ref < g1.objs.length) →
    (∀ e ∈ p, e.1.ref < g1.objs.length) →
    bfsAux g2 fuel (q.map (renRef ρ)) (s.map (renRef ρ)) (p.map (renEntry ρ)) =
      (bfsAux g1 fuel q s p).map
        (fun SP => (SP.1.map (renRef ρ), SP.2.map (renEntry ρ))) := by
  intro fuel
  induction fuel with
  | zero => intro q s p _ _; rfl
  | succ fuel ih =>
      intro q s p hq hp
      cases q with
      | nil => rfl
      | cons cur rest =>
          have hcur : cur.ref < g1.objs.length := hq cur (List.mem_cons_self _ _)
          have hrp : recPath (p.map (renEntry ρ)) (renRef ρ cur) =
              (recPath p cur).map (renRef ρ) := by
            unfold recPath
            rw [alookup_renEntries hiso hp hcur]
            cases alookup p cur with
            | none => rfl
            | some pa => rfl
          rw [List.map_cons, bfsAux_cons, bfsAux_cons, hrp,
            children_ren hiso hcur,
            visitChildren_ren hiso _ _ _ _ hp (children_valid hiso.1 hcur)]
          have hs : s.map (renRef ρ) ++ [renRef ρ cur] =
              (s ++ [cur]).map (renRef ρ) := by
            simp
          rw [hs]
          obtain ⟨news, hst, hnews_sub, _, _, _⟩ :=
            visitChildren_spec (recPath p cur) (children g1 cur) p rest
          rw [hst]
          refine ih (rest ++ news) (s ++ [cur])
            (p ++ news.map (fun c => (c, recPath p cur ++ [c]))) ?_ ?_
          · intro x hx
            rcases List.mem_append.mp hx with h | h
            · exact hq x (List.mem_cons_of_mem _ h)
            · exact children_valid hiso.1 hcur x (hnews_sub x h)
          · intro e he
            rcases List.mem_append.mp he with h | h
            · exact hp e h
            · rcases List.mem_map.mp h with ⟨c, hcmem, hce⟩
              rw [← hce]
              exact children_valid hiso.1 hcur c (hnews_sub c hcmem)

theorem bfsAux_mono (g : Graph) :
    ∀ (fuel fuel' : Nat) (q s : List CRef) (p : List (CRef × List CRef))
    (x : List CRef × List (CRef × List CRef)),
    bfsAux g fuel q s p = some x → fuel ≤ fuel' →
    bfsAux g fuel' q s p = some x := by
  intro fuel
  induction fuel with
  | zero =>
      intro fuel' q s p x h
      exact absurd h (by simp [bfsAux])
  | succ fuel ih =>
      intro fuel' q s p x h hle
      cases fuel' with
      | zero => exact absurd hle (by omega)
      | succ f' =>
          cases q with
          | nil => exact h
          | cons cur rest =>
              rw [bfsAux_cons] at h ⊢
              exact ih f' _ _ _ x h (Nat.le_of_succ_le_succ hle)

/-- Every reference visited by the traversal points into a well-formed heap. -/
theorem bfs_member_valid (g : Graph) (hwf : WFGraph g) :
    ∀ r ∈ bfs_sorted g, r.ref < g.objs.length := by
  intro r hr
  have hk : r ∈ (path_to_root g).map (·.1) := by
    rw [(final_inv g).keysEq]
    simpa using hr
  rcases List.mem_map.mp hk with ⟨e, he, hee⟩
  rcases (final_inv g).inDeps e he with h | h
  · rw [← hee, h]
    exact hwf.1
  · rcases List.mem_flatten.mp h with ⟨l, hl, hel⟩
    rcases List.mem_map.mp hl with ⟨o, ho, hlo⟩
    rw [← hee]
    exact hwf.2 o ho e.1 (hlo ▸ hel)

theorem path_entries_valid (g : Graph) (hwf : WFGraph g) :
    ∀ e ∈ path_to_root g, e.1.ref < g.objs.length := by
  intro e he
  rcases (final_inv g).inDeps e he with h | h
  · rw [h]
    exact hwf.1
  · rcases List.mem_flatten.mp h with ⟨l, hl, hel⟩
    rcases List.mem_map.mp hl with ⟨o, ho, hlo⟩
    exact hwf.2 o ho e.1 (hlo ▸ hel)

theorem traversal_ren (hiso : StructuralIso ρ σ g1 g2) :
    bfs_sorted g2 = (bfs_sorted g1).map (renRef ρ) ∧
    path_to_root g2 = (path_to_root g1).map (renEntry ρ) := by
  have h1 := (traversal_terminates g1).1
  have h2 := (traversal_terminates g2).1
  have hrootv : (rootRef g1).ref < g1.objs.length := hiso.1.1
  have hcomm := bfsAux_ren hiso (max (bfsFuel g1) (bfsFuel g2))
    [rootRef g1] [] [(rootRef g1, [])]
    (by
      intro x hx
      simp only [List.mem_singleton] at hx
      rw [hx]
      exact hrootv)
    (by
      intro e he
      simp only [List.mem_singleton] at he
      rw [he]
      exact hrootv)
  have hinit1 : ([rootRef g1].map (renRef ρ)) = [rootRef g2] := by
    simp [rootRef, renRef, hiso.2.2.1]
  have hinit2 : ([(rootRef g1, ([] : List CRef))].map (renEntry ρ)) =
      [(rootRef g2, [])] := by
    simp [renEntry, rootRef, renRef, hiso.2.2.1]
  rw [hinit1, hinit2] at hcomm
  have h1' := bfsAux_mono g1 (bfsFuel g1) (max (bfsFuel g1) (bfsFuel g2))
    _ _ _ _ h1 (Nat.le_max_left _ _)
  have h2' := bfsAux_mono g2 (bfsFuel g2) (max (bfsFuel g1) (bfsFuel g2))
    _ _ _ _ h2 (Nat.le_max_right _ _)
  rw [h1'] at hcomm
  simp only [List.map_nil] at hcomm
  rw [h2'] at hcomm
  have := Option.some_inj.mp hcomm
  exact ⟨congrArg Prod.fst this, congrArg Prod.snd this⟩

theorem pathOf_ren (hiso : StructuralIso ρ σ g1 g2) {r : CRef}
    (hr : r.ref < g1.objs.length) :
    pathOf g2 (renRef ρ r) = (pathOf g1 r).map (renRef ρ) := by
  have hl : alookup (path_to_root g2) (renRef ρ r) =
      (alookup (path_to_root g1) r).map (List.map (renRef ρ)) := by
    rw [(traversal_ren hiso).2]
    exact alookup_renEntries hiso (path_entries_valid g1 hiso.1) hr
  show recPath (path_to_root g2) (renRef ρ r) =
    (recPath (path_to_root g1) r).map (renRef ρ)
  unfold recPath
  rw [hl]
  cases alookup (path_to_root g1) r with
  | none => rfl
  | some pa => rfl

end Renaming

section RenamingPhases

variable {ρ σ : Nat → Nat} {g1 g2 : Graph}

theorem name_from_path_ren (p : List CRef) :
    name_from_path (p.map (renRef ρ)) = name_from_path p := by
  unfold name_from_path
  have hf : renderSeg ∘ renRef ρ = renderSeg := funext fun c => rfl
  rw [List.map_map, hf]

theorem dictInsert_ren (d : List (String × Nat)) (k : String) (v : Nat) :
    dictInsert (mapVals σ d) k (σ v) = mapVals σ (dictInsert d k v) := by
  have hlk : alookup (mapVals σ d) k = (alookup d k).map σ :=
    alookup_map_values σ d k
  by_cases hs : (alookup d k).isSome
  · have hs2 : (alookup (mapVals σ d) k).isSome := by
      rw [hlk]
      rcases Option.isSome_iff_exists.mp hs with ⟨b, hb⟩
      simp [hb]
    simp only [dictInsert, hs, hs2, if_true]
    unfold mapVals
    rw [List.map_map, List.map_map]
    congr 1
    funext e
    by_cases he : e.1 = k <;> simp [Function.comp, he]
  · have hs2 : ¬ (alookup (mapVals σ d) k).isSome := by
      rw [hlk, Option.not_isSome_iff_eq_none.mp hs]
      simp
    simp only [dictInsert]
    rw [if_neg hs, if_neg hs2]
    unfold mapVals
    rw [List.map_append]
    rfl

theorem addOwned_ren (pre : String) :
    ∀ (ovs : List (String × Nat)) (d : List (String × Nat)),
    addOwned pre (mapVals σ d) (ovs.map (fun ov => (ov.1, σ ov.2))) =
      mapVals σ (addOwned pre d ovs) := by
  intro ovs
  induction ovs with
  | nil => intro d; rfl
  | cons ov t ih =>
      intro d
      show addOwned pre
        (dictInsert (mapVals σ d) (keyOf pre ov.1) (σ ov.2)) (t.map _) = _
      rw [dictInsert_ren]
      exact ih (dictInsert d (keyOf pre ov.1) ov.2)

theorem find_slots_ren (σ : Nat → Nat) (S : List Nat)
    (hinj : ∀ a ∈ S, ∀ b ∈ S, σ a = σ b → a = b)
    (v : Nat) (hv : v ∈ S) (slot : String) :
    ∀ (l : List (Nat × String × Nat)), (∀ e ∈ l, e.1 ∈ S) →
    ((l.map (fun e => (σ e.1, e.2.1, σ e.2.2))).find?
        (fun e => decide (e.1 = σ v) && decide (e.2.1 = slot))).map (·.2.2) =
      ((l.find? (fun e => decide (e.1 = v) && decide (e.2.1 = slot))).map
        (·.2.2)).map σ := by
  intro l
  induction l with
  | nil => intro _; rfl
  | cons e t ih =>
      intro hl
      have he1 : e.1 ∈ S := hl e (List.mem_cons_self _ _)
      by_cases h1 : e.1 = v
      · by_cases h2 : e.2.1 = slot
        · have hσ : σ e.1 = σ v := by rw [h1]
          rw [List.map_cons, List.find?_cons_of_pos _ (by simp [hσ, h2]),
            List.find?_cons_of_pos _ (by simp [h1, h2])]
          rfl
        · rw [List.map_cons, List.find?_cons_of_neg _ (by simp [h2]),
            List.find?_cons_of_neg _ (by simp [h2])]
          exact ih (fun e' h => hl e' (List.mem_cons_of_mem _ h))
      · have hne : ¬ σ e.1 = σ v := fun hc => h1 (hinj e.1 he1 v hv hc)
        rw [List.map_cons, List.find?_cons_of_neg _ (by simp [hne]),
          List.find?_cons_of_neg _ (by simp [h1])]
        exact ih (fun e' h => hl e' (List.mem_cons_of_mem _ h))

theorem getSlot_ren (hinj : ∀ a ∈ injIds g1, ∀ b ∈ injIds g1, σ a = σ b → a = b)
    {o : Obj} (hslots : ∀ e ∈ o.slots, e.1 ∈ injIds g1)
    {v : Nat} (hv : v ∈ injIds g1) (slot : String) :
    (renObj ρ σ o).getSlot (σ v) slot = (o.getSlot v slot).map σ := by
  show ((o.slots.map (fun e => (σ e.1, e.2.1, σ e.2.2))).find?
      (fun e => decide (e.1 = σ v) && decide (e.2.1 = slot))).map (·.2.2) = _
  rw [find_slots_ren σ (injIds g1) hinj v hv slot o.slots hslots]
  rfl

theorem obj_slots_in_injIds (g : Graph) (i : Nat) :
    ∀ e ∈ (g.obj i).slots, e.1 ∈ injIds g := by
  intro e he
  unfold Graph.obj at he
  by_cases h : i < g.objs.length
  · rw [List.getD_eq_getElem g.objs defaultObj h] at he
    exact List.mem_append.mpr (Or.inr (List.mem_flatten.mpr
      ⟨_, List.mem_map_of_mem _ (g.objs.getElem_mem h),
        List.mem_map_of_mem (·.1) he⟩))
  · rw [List.getD_eq_default g.objs defaultObj (Nat.le_of_not_lt h)] at he
    simp [defaultObj] at he

theorem obj_owned_in_ownedIds (g : Graph) (i : Nat) :
    ∀ ov ∈ (g.obj i).ownedVars, ov.2 ∈ ownedIds g := by
  intro ov hov
  unfold Graph.obj at hov
  by_cases h : i < g.objs.length
  · rw [List.getD_eq_getElem g.objs defaultObj h] at hov
    exact List.mem_flatten.mpr
      ⟨_, List.mem_map_of_mem _ (g.objs.getElem_mem h),
        List.mem_map_of_mem (·.2) hov⟩
  · rw [List.getD_eq_default g.objs defaultObj (Nat.le_of_not_lt h)] at hov
    simp [defaultObj] at hov

theorem nonSlotTrace_vals (g : Graph) :
    ∀ kv ∈ nonSlotTrace g, kv.2 ∈ ownedIds g := by
  intro kv hkv
  unfold nonSlotTrace at hkv
  rcases List.mem_flatten.mp hkv with ⟨l, hl, hkl⟩
  rcases List.mem_map.mp hl with ⟨r, hr, hlr⟩
  rw [← hlr] at hkl
  rcases List.mem_map.mp hkl with ⟨ov, hov, hovkv⟩
  have := obj_owned_in_ownedIds g r.ref ov hov
  rw [← hovkv]
  exact this

theorem nonSlotDict_vals (g : Graph) :
    ∀ kv ∈ nonSlotDict g, kv.2 ∈ ownedIds g := by
  intro kv hkv
  rw [nonSlotDict_eq] at hkv
  rcases mem_dictInsertAll hkv with h | h
  · simp at h
  · exact nonSlotTrace_vals g kv h

theorem foldl_nonslot_ren (hiso : StructuralIso ρ σ g1 g2) :
    ∀ (l : List CRef) (d : List (String × Nat)),
    (∀ r ∈ l, r.ref < g1.objs.length) →
    (l.map (renRef ρ)).foldl (fun d r =>
        addOwned (name_from_path (pathOf g2 r)) d (g2.obj r.ref).ownedVars)
      (mapVals σ d) =
      mapVals σ (l.foldl (fun d r =>
        addOwned (name_from_path (pathOf g1 r)) d (g1.obj r.ref).ownedVars) d) := by
  intro l
  induction l with
  | nil => intro d _; rfl
  | cons r t ih =>
      intro d hval
      have hr : r.ref < g1.objs.length := hval r (List.mem_cons_self _ _)
      have hobj : g2.obj (renRef ρ r).ref = renObj ρ σ (g1.obj r.ref) :=
        hiso.2.2.2.2.2.1 r.ref hr
      show (t.map (renRef ρ)).foldl _
        (addOwned (name_from_path (pathOf g2 (renRef ρ r))) (mapVals σ d)
          (g2.obj (renRef ρ r).ref).ownedVars) = _
      rw [pathOf_ren hiso hr, name_from_path_ren, hobj]
      have hov : (renObj ρ σ (g1.obj r.ref)).ownedVars =
          (g1.obj r.ref).ownedVars.map (fun ov => (ov.1, σ ov.2)) := rfl
      rw [hov, addOwned_ren]
      exact ih _ (fun r' h => hval r' (List.mem_cons_of_mem _ h))

theorem nonSlotDict_ren (hiso : StructuralIso ρ σ g1 g2) :
    nonSlotDict g2 = mapVals σ (nonSlotDict g1) := by
  show (bfs_sorted g2).foldl _ [] = mapVals σ ((bfs_sorted g1).foldl _ [])
  rw [(traversal_ren hiso).1]
  have h := foldl_nonslot_ren hiso (bfs_sorted g1) [] (bfs_member_valid g1 hiso.1)
  simpa using h

theorem suffixFor_ren (hiso : StructuralIso ρ σ g1 g2) {r : CRef}
    (hr : r.ref < g1.objs.length) (slot : String) :
    suffixFor g2 (renRef ρ r) slot = suffixFor g1 r slot := by
  unfold suffixFor
  rw [pathOf_ren hiso hr, name_from_path_ren]

theorem addSlotEntries_ren
    (hinj : ∀ a ∈ injIds g1, ∀ b ∈ injIds g1, σ a = σ b → a = b)
    {o : Obj} (hslots : ∀ e ∈ o.slots, e.1 ∈ injIds g1) (sfx slot : String) :
    ∀ (snapshot d : List (String × Nat)),
    (∀ kv ∈ snapshot, kv.2 ∈ ownedIds g1) →
    addSlotEntries (renObj ρ σ o) sfx slot (mapVals σ snapshot) (mapVals σ d) =
      mapVals σ (addSlotEntries o sfx slot snapshot d) := by
  intro snapshot
  induction snapshot with
  | nil => intro d _; rfl
  | cons kv t ih =>
      intro d hvals
      have hkv : kv.2 ∈ ownedIds g1 := hvals kv (List.mem_cons_self _ _)
      have hgs := getSlot_ren (ρ := ρ) hinj hslots
        (v := kv.2) (List.mem_append.mpr (Or.inl hkv)) slot
      have hvals' : ∀ kv' ∈ t, kv'.2 ∈ ownedIds g1 :=
        fun kv' h => hvals kv' (List.mem_cons_of_mem _ h)
      cases hg : o.getSlot kv.2 slot with
      | none =>
          rw [hg] at hgs
          show addSlotEntries (renObj ρ σ o) sfx slot
            ((kv.1, σ kv.2) :: mapVals σ t) (mapVals σ d) = _
          simp only [addSlotEntries, hg, hgs]
          exact ih d hvals'
      | some sv =>
          rw [hg] at hgs
          show addSlotEntries (renObj ρ σ o) sfx slot
            ((kv.1, σ kv.2) :: mapVals σ t) (mapVals σ d) = _
          simp only [addSlotEntries, hg, hgs, Option.map_some']
          rw [dictInsert_ren]
          exact ih _ hvals'

theorem processSlots_ren (hiso : StructuralIso ρ σ g1 g2) {r : CRef}
    (hr : r.ref < g1.objs.length) (snapshot : List (String × Nat))
    (hvals : ∀ kv ∈ snapshot, kv.2 ∈ ownedIds g1) :
    ∀ (slots : List String) (d : List (String × Nat)),
    processSlots g2 (renRef ρ r) (mapVals σ snapshot)
        (g2.obj (renRef ρ r).ref) slots (mapVals σ d) =
      (processSlots g1 r snapshot (g1.obj r.ref) slots d).map (mapVals σ) := by
  have hobj : g2.obj (renRef ρ r).ref = renObj ρ σ (g1.obj r.ref) :=
    hiso.2.2.2.2.2.1 r.ref hr
  intro slots
  induction slots with
  | nil => intro d; rfl
  | cons slot rest ih =>
      intro d
      by_cases hvs : pyValidLocalName slot
      · show (if pyValidLocalName slot then _ else _) = _
        rw [if_pos hvs]
        have hrhs : processSlots g1 r snapshot (g1.obj r.ref) (slot :: rest) d =
            processSlots g1 r snapshot (g1.obj r.ref) rest
              (addSlotEntries (g1.obj r.ref) (suffixFor g1 r slot) slot snapshot d) := by
          show (if pyValidLocalName slot then _ else _) = _
          rw [if_pos hvs]
        have hstep : addSlotEntries (g2.obj (renRef ρ r).ref)
            (suffixFor g2 (renRef ρ r) slot) slot (mapVals σ snapshot)
            (mapVals σ d) =
            mapVals σ (addSlotEntries (g1.obj r.ref) (suffixFor g1 r slot) slot
              snapshot d) := by
          rw [hobj, suffixFor_ren hiso hr]
          exact addSlotEntries_ren hiso.2.2.2.2.2.2
            (obj_slots_in_injIds g1 r.ref) _ _ snapshot d hvals
        rw [hrhs, hstep]
        exact ih _
      · show (if pyValidLocalName slot then _ else _) = _
        rw [if_neg hvs]
        have hrhs : processSlots g1 r snapshot (g1.obj r.ref) (slot :: rest) d =
            .error ("invalid slot name " ++ slot) := by
          show (if pyValidLocalName slot then _ else _) = _
          rw [if_neg hvs]
        rw [hrhs]
        rfl

theorem slotPhase_ren (hiso : StructuralIso ρ σ g1 g2)
    (snapshot : List (String × Nat))
    (hvals : ∀ kv ∈ snapshot, kv.2 ∈ ownedIds g1) :
    ∀ (l : List CRef) (d : List (String × Nat)),
    (∀ r ∈ l, r.ref < g1.objs.length) →
    slotPhase g2 (mapVals σ snapshot) (l.map (renRef ρ)) (mapVals σ d) =
      (slotPhase g1 snapshot l d).map (mapVals σ) := by
  intro l
  induction l with
  | nil => intro d _; rfl
  | cons r rest ih =>
      intro d hval
      have hr : r.ref < g1.objs.length := hval r (List.mem_cons_self _ _)
      have hval' : ∀ r' ∈ rest, r'.ref < g1.objs.length :=
        fun r' h => hval r' (List.mem_cons_of_mem _ h)
      have hobj : g2.obj (renRef ρ r).ref = renObj ρ σ (g1.obj r.ref) :=
        hiso.2.2.2.2.2.1 r.ref hr
      have hoptEq : (g2.obj (renRef ρ r).ref).isOptimizer =
          (g1.obj r.ref).isOptimizer := by
        rw [hobj]
        rfl
      by_cases hopt : (g1.obj r.ref).isOptimizer
      · show (if (g2.obj (renRef ρ r).ref).isOptimizer then _ else _) = _
        rw [hoptEq, if_pos hopt]
        have hrhs : slotPhase g1 snapshot (r :: rest) d =
            (match processSlots g1 r snapshot (g1.obj r.ref)
                (g1.obj r.ref).slotNames d with
             | .ok d' => slotPhase g1 snapshot rest d'
             | .error e => .error e) := by
          show (if (g1.obj r.ref).isOptimizer then _ else _) = _
          rw [if_pos hopt]
        rw [hrhs]
        have hsn : (g2.obj (renRef ρ r).ref).slotNames =
            (g1.obj r.ref).slotNames := by
          rw [hobj]
          rfl
        have hps := processSlots_ren hiso hr snapshot hvals
          (g1.obj r.ref).slotNames d
        rw [hsn, hps]
        cases processSlots g1 r snapshot (g1.obj r.ref)
            (g1.obj r.ref).slotNames d with
        | ok d' => exact ih d' hval'
        | error e => rfl
      · show (if (g2.obj (renRef ρ r).ref).isOptimizer then _ else _) = _
        rw [hoptEq, if_neg hopt]
        have hrhs : slotPhase g1 snapshot (r :: rest) d =
            slotPhase g1 snapshot rest d := by
          show (if (g1.obj r.ref).isOptimizer then _ else _) = _
          rw [if_neg hopt]
        rw [hrhs]
        exact ih d hval'

/-- Determinism up to identity renaming: structurally equal graphs produce the
same keys, with values related by the variable renaming. -/
theorem name_variables_ren (hiso : StructuralIso ρ σ g1 g2) :
    name_variables g2 = (name_variables g1).map (mapVals σ) := by
  show slotPhase g2 (nonSlotDict g2) (bfs_sorted g2) (nonSlotDict g2) =
    (slotPhase g1 (nonSlotDict g1) (bfs_sorted g1) (nonSlotDict g1)).map (mapVals σ)
  rw [(traversal_ren hiso).1, nonSlotDict_ren hiso]
  exact slotPhase_ren hiso (nonSlotDict g1) (nonSlotDict_vals g1)
    (bfs_sorted g1) (nonSlotDict g1) (bfs_member_valid g1 hiso.1)

end RenamingPhases

theorem strongInv_init : StrongInv initCkpt := by
  refine ⟨rfl, ?_, ?_, ?_, rfl, rfl⟩ <;> simp [initCkpt]

theorem track_none_eq (s : CkptState) (r : Nat) :
    track_checkpointable s r none =
      ({ s with
          checkpoint_dependencies := s.checkpoint_dependencies ++
            [⟨none, s.checkpoint_dependencies.length, r⟩] },
       .ok r) := rfl

theorem track_some_eq (s : CkptState) (r : Nat) (n : String) :
    track_checkpointable s r (some n) =
      if ¬ pyValidLocalName n then (s, .error "invalid name")
      else if n ∈ s.dependency_names then
        (s, .error "duplicate dependency name")
      else
        ({ s with
            dependency_names := s.dependency_names ++ [n],
            checkpoint_dependencies := s.checkpoint_dependencies ++
              [⟨some n, s.checkpoint_dependencies.length, r⟩] },
         .ok r) := rfl

theorem strongInv_step (s : CkptState) (op : CkptOp) (h : StrongInv s) :
    StrongInv (applyOp s op).1 := by
  obtain ⟨huid, hnames, hvalid, hvars, hdepc, hvarc⟩ := h
  cases op with
  | addVar n v =>
      show StrongInv (add_variable s n v).1
      unfold add_variable
      by_cases hmem : n ∈ s.owned_variable_names
      · rw [if_pos hmem]
        exact ⟨huid, hnames, hvalid, hvars, hdepc, hvarc⟩
      · rw [if_neg hmem]
        refine ⟨huid, hnames, hvalid, ?_, hdepc, ?_⟩
        · show ((s.owned_variables ++ [(n, v)]).map (·.1)).Nodup
          rw [List.map_append]
          refine List.nodup_append.mpr ⟨hvars, by simp, ?_⟩
          intro a ha hb
          simp only [List.map_cons, List.map_nil, List.mem_singleton] at hb
          rw [hvarc] at hmem
          exact hmem (hb ▸ ha)
        · show s.owned_variable_names ++ [n] = (s.owned_variables ++ [(n, v)]).map (·.1)
          rw [List.map_append, hvarc]
          rfl
  | track r nm =>
      show StrongInv (track_checkpointable s r nm).1
      cases nm with
      | none =>
          rw [track_none_eq]
          refine ⟨?_, ?_, ?_, hvars, ?_, hvarc⟩
          · show ((s.checkpoint_dependencies ++ [_]).map CRef.local_uid) = _
            rw [List.map_append, huid, List.length_append]
            simp [List.range_succ]
          · show ((s.checkpoint_dependencies ++ [_]).filterMap CRef.name).Nodup
            rw [List.filterMap_append]
            simpa using hnames
          · intro x hx
            rw [List.filterMap_append] at hx
            rcases List.mem_append.mp hx with hx1 | hx1
            · exact hvalid x hx1
            · simp at hx1
          · show s.dependency_names = (s.checkpoint_dependencies ++ [_]).filterMap CRef.name
            rw [List.filterMap_append, hdepc]
            simp
      | some n =>
          rw [track_some_eq]
          by_cases hval : pyValidLocalName n
          · rw [if_neg (by simpa using hval)]
            by_cases hmem : n ∈ s.dependency_names
            · rw [if_pos hmem]
              exact ⟨huid, hnames, hvalid, hvars, hdepc, hvarc⟩
            · rw [if_neg hmem]
              refine ⟨?_, ?_, ?_, hvars, ?_, hvarc⟩
              · show ((s.checkpoint_dependencies ++ [_]).map CRef.local_uid) = _
                rw [List.map_append, huid, List.length_append]
                simp [List.range_succ]
              · show ((s.checkpoint_dependencies ++ [_]).filterMap CRef.name).Nodup
                rw [List.filterMap_append]
                refine List.nodup_append.mpr ⟨hnames, by simp, ?_⟩
                intro a ha hb
                simp only [List.filterMap_cons, List.filterMap_nil,
                  List.mem_singleton] at hb
                rw [hdepc] at hmem
                exact hmem (hb ▸ ha)
              · intro x hx
                rw [List.filterMap_append] at hx
                rcases List.mem_append.mp hx with hx1 | hx1
                · exact hvalid x hx1
                · have : x = n := by simpa using hx1
                  rw [this]
                  exact hval
              · show s.dependency_names ++ [n] =
                  (s.checkpoint_dependencies ++ [_]).filterMap CRef.name
                rw [List.filterMap_append, hdepc]
                rfl
          · rw [if_pos (by simpa using hval)]
            exact ⟨huid, hnames, hvalid, hvars, hdepc, hvarc⟩

theorem strongInv_run (ops : List CkptOp) :
    ∀ s, StrongInv s → StrongInv (runOps ops s) := by
  induction ops with
  | nil => intro s h; exact h
  | cons op t ih =>
      intro s h
      show StrongInv (runOps t (applyOp s op).1)
      exact ih _ (strongInv_step s op h)

theorem ckptInv_of_strong (s : CkptState) (h : StrongInv s) : CkptInv s := by
  obtain ⟨huid, hnames, hvalid, hvars, _⟩ := h
  refine ⟨?_, hnames, hvalid, hvars⟩
  intro i hi
  have hlen : i < (s.checkpoint_dependencies.map CRef.local_uid).length := by
    simpa using hi
  have h3 := List.getElem_of_eq huid hlen
  rw [List.getElem_map, List.getElem_range] at h3
  rw [List.get_eq_getElem]
  exact h3

/-! ## Shared helper for the amended claims -/

/-- When no exception is raised and all generated keys are distinct, the
returned dictionary is exactly the generated entry trace. -/
theorem name_variables_ok_inv (g : Graph) (hnd : NodupKeys g)
    {d : List (String × Nat)} (hok : name_variables g = .ok d) :
    d = allKeysTrace g := by
  have hnoerr : ¬ ∃ e, name_variables g = .error e := by
    rintro ⟨e, he⟩
    rw [hok] at he
    exact Except.noConfusion he
  have hvalid : ∀ r ∈ bfs_sorted g, (g.obj r.ref).isOptimizer →
      ∀ s ∈ (g.obj r.ref).slotNames, pyValidLocalName s := by
    intro r hr hopt s hs
    by_contra hc
    exact hnoerr ((name_variables_err_iff g).mpr ⟨r, hr, hopt, s, hs, hc⟩)
  have h := name_variables_ok g hnd hvalid
  rw [hok] at h
  exact Except.ok.inj h

/-! ## The claims -/

/-- Claim C3: `_breadth_first_checkpointable_traversal` performs a
breadth-first search from the root: `bfs_sorted` enumerates exactly the
reachable references, in nondecreasing order of edge-distance from the root,
and `path_to_root` records for every visited reference a path from the root
of minimal length (its recorded length realizes the edge-distance). -/
theorem C3_bfs_shortest_paths (g : Graph) :
    (∀ r, Reachable g r ↔ r ∈ bfs_sorted g) ∧
    (∀ r ∈ bfs_sorted g, alookup (path_to_root g) r = some (pathOf g r) ∧
      ReachPath g r (pathOf g r) ∧
      ∀ q, ReachPath g r q → (pathOf g r).length ≤ q.length) ∧
    (∀ r ∈ bfs_sorted g, distIs g r (pathOf g r).length) ∧
    List.Pairwise (fun a b => (pathOf g a).length ≤ (pathOf g b).length)
      (bfs_sorted g) := by
  refine ⟨fun r => (mem_bfs_iff_reachable g r).symm, ?_, ?_, bfs_sorted_pairwise g⟩
  · intro r hr
    exact recorded_shortest g hr
  · intro r hr
    obtain ⟨_, hp, hmin⟩ := recorded_shortest g hr
    exact ⟨⟨pathOf g r, hp, rfl⟩, fun q hq => hmin q hq⟩

/-- Claim C3 witness: the shortest-path facts instantiated on `gW`. -/
theorem C3_witness :
    (Reachable gW ⟨some "a", 0, 1⟩ ↔ ⟨some "a", 0, 1⟩ ∈ bfs_sorted gW) ∧
    distIs gW ⟨some "a", 0, 1⟩ (pathOf gW ⟨some "a", 0, 1⟩).length :=
  ⟨(C3_bfs_shortest_paths gW).1 _,
   (C3_bfs_shortest_paths gW).2.2.1 _ (by decide)⟩

/-- Claim C6: the traversal terminates on every finite graph (with fuel
`bfsFuel g` the queue empties), even cyclic ones, and every reachable
reference is appended to `bfs_sorted` exactly once. -/
theorem C6_termination_no_duplicates (g : Graph) :
    (bfsAux g (bfsFuel g) [rootRef g] [] [(rootRef g, [])]).isSome ∧
    (bfs_sorted g).Nodup ∧
    ∀ r, Reachable g r → (bfs_sorted g).count r = 1 := by
  refine ⟨?_, bfs_sorted_nodup g, ?_⟩
  · rw [(traversal_terminates g).1]
    rfl
  · intro r hr
    exact List.count_eq_one_of_mem (bfs_sorted_nodup g)
      ((mem_bfs_iff_reachable g r).mpr hr)

/-- Claim C6 witness: termination and single visit on a cyclic graph (the
object depends on itself). -/
theorem C6_witness :
    ((bfsAux gCyc (bfsFuel gCyc) [rootRef gCyc] [] [(rootRef gCyc, [])]).isSome ∧
      (bfs_sorted gCyc).Nodup) ∧
    (bfs_sorted gCyc).count ⟨some "s", 0, 0⟩ = 1 :=
  ⟨⟨(C6_termination_no_duplicates gCyc).1, (C6_termination_no_duplicates gCyc).2.1⟩,
   (C6_termination_no_duplicates gCyc).2.2 _
     ⟨[⟨some "s", 0, 0⟩], ReachPath.cons ReachPath.nil (by decide)⟩⟩

/-- Claim C1 counterexample: on `gCex` the claim as stated fails. The only
shortest path to object 1 renders as `"0"`, so its variable's key is `"0/v"`;
but the dependency named `"0"` (accepted by the validation regex) makes its
own variable render to the same key, and the later dict write overwrites the
earlier one: the returned dictionary maps `"0/v"` to variable 2, not 1. -/
theorem C1_counterexample : ¬ ClaimC1 gCex := by
  intro h
  obtain ⟨p, hop, hmin, hlook⟩ := h [("0/v", 2)] rfl 1 gCex_reach1 "v" 1 (by decide)
  rcases hop with ⟨r, hrref, hrp⟩
  rcases gCex_paths r p hrp with ⟨hr, hp⟩ | ⟨hr, hp⟩ | ⟨hr, hp⟩
  · rw [hr] at hrref
    exact absurd hrref (by decide)
  · rw [hp] at hlook
    exact absurd hlook (by decide)
  · rw [hr] at hrref
    exact absurd hrref (by decide)

/-- Claim C1 (amended): provided all generated checkpoint keys are pairwise
distinct, every variable created on a reachable object is mapped, in the
returned dictionary, under the key formed by joining with `/` the segments of
a shortest path from the root to its owner (each segment the dependency's
local name if one was given, else the decimal rendering of its `local_uid`)
followed by the variable's local name; when the owner is the root the chosen
path is empty and the key is just the variable's local name. -/
theorem C1_amended (g : Graph) (hnd : NodupKeys g) (d : List (String × Nat))
    (hok : name_variables g = .ok d) (i : Nat) (hreach : ObjReachable g i)
    (nm : String) (vid : Nat) (hov : (nm, vid) ∈ (g.obj i).ownedVars) :
    ∃ p, ObjPath g i p ∧ (∀ q, ObjPath g i q → p.length ≤ q.length) ∧
      (i = g.root → p = []) ∧
      alookup d (keyOf (name_from_path p) nm) = some vid := by
  have hd := name_variables_ok_inv g hnd hok
  obtain ⟨r, hrmem, hrref, hop, hmin⟩ := shortest_object_path g hreach
  refine ⟨pathOf g r, hop, hmin, ?_, ?_⟩
  · intro hi
    have hnil : ObjPath g i [] := ⟨rootRef g, by rw [hi]; rfl, ReachPath.nil⟩
    exact List.length_eq_zero.mp (Nat.le_zero.mp (hmin [] hnil))
  · rw [← hrref] at hov
    have hmemtrace : (keyOf (name_from_path (pathOf g r)) nm, vid) ∈
        nonSlotTrace g := mem_nonSlotTrace g hrmem hov
    rw [hd]
    exact alookup_eq_some_of_mem_nodup hnd (List.mem_append.mpr (Or.inl hmemtrace))

/-- Claim C1 witness: the amended claim instantiated on `gW`, object 1,
variable `"x"`. -/
theorem C1_witness :
    ∃ p, ObjPath gW 1 p ∧ (∀ q, ObjPath gW 1 q → p.length ≤ q.length) ∧
      (1 = gW.root → p = []) ∧
      alookup [("w", 5), ("a/x", 7)] (keyOf (name_from_path p) "x") = some 7 :=
  C1_amended gW (by decide) [("w", 5), ("a/x", 7)] rfl 1
    ⟨[⟨some "a", 0, 1⟩], ⟨some "a", 0, 1⟩, rfl,
      ReachPath.cons ReachPath.nil (by decide)⟩
    "x" 7 (by decide)

/-- Claim C2 counterexample: on `gCex2` the claim as stated fails. Two
distinct optimizers' references render to the same path segment `"0"`, so
both slot variables of variable 10 get the key `"v/_OPTIMIZER_SLOT/0/m"`; the
second write overwrites the first, and slot variable 11 of the first
optimizer is not stored under its stated key (the dict holds 12 there). -/
theorem C2_counterexample : ¬ ClaimC2 gCex2 := by
  intro h
  have := h [("v", 10), ("v/_OPTIMIZER_SLOT/0/m", 12)] rfl gCexR1 (by decide)
    (by decide) "m" (by decide) "v" 10 (by decide) 11 (by decide)
  exact absurd this (by decide)

/-- Claim C2 (amended): `_name_variables` raises `ValueError` exactly when
some reachable optimizer has a slot name failing the validation regex; and
when it returns and all generated keys are pairwise distinct, the returned
dictionary is exactly the non-slot entries followed by the slot entries, so
each slot variable `sv = get_slot(v, slot)` of a snapshotted non-slot entry
`(k, v)` is stored under `k ++ "/" ++ _OPTIMIZER_SLOT/<optimizer path>/<slot>`. -/
theorem C2_amended (g : Graph) :
    ((∃ e, name_variables g = .error e) ↔
      ∃ r ∈ bfs_sorted g, (g.obj r.ref).isOptimizer ∧
        ∃ s ∈ (g.obj r.ref).slotNames, ¬ pyValidLocalName s) ∧
    (NodupKeys g → ∀ d, name_variables g = .ok d →
      d = allKeysTrace g ∧
      ∀ r ∈ bfs_sorted g, (g.obj r.ref).isOptimizer = true →
      ∀ slot ∈ (g.obj r.ref).slotNames,
      ∀ k v, (k, v) ∈ nonSlotTrace g →
      ∀ sv, (g.obj r.ref).getSlot v slot = some sv →
      alookup d (k ++ "/" ++ suffixFor g r slot) = some sv) := by
  refine ⟨name_variables_err_iff g, ?_⟩
  intro hnd d hok
  have hd := name_variables_ok_inv g hnd hok
  refine ⟨hd, ?_⟩
  intro r hr hopt slot hslot k v hkv sv hgs
  have hmem : (k ++ "/" ++ suffixFor g r slot, sv) ∈
      slotTrace g (nonSlotTrace g) (bfs_sorted g) :=
    mem_slotTrace g (nonSlotTrace g) hr hopt hslot hkv hgs
  rw [hd]
  exact alookup_eq_some_of_mem_nodup hnd (List.mem_append.mpr (Or.inr hmem))

/-- Claim C2 witness: on `gWS` no error is raised and the slot variable 4 is
stored under `v/_OPTIMIZER_SLOT/a/m`. -/
theorem C2_witness :
    (¬ ∃ e, name_variables gWS = .error e) ∧
    alookup (allKeysTrace gWS)
      ("v" ++ "/" ++ suffixFor gWS ⟨some "a", 0, 1⟩ "m") = some 4 := by
  constructor
  · intro he
    exact absurd ((C2_amended gWS).1.mp he) (by decide)
  · have h := (C2_amended gWS).2 (by decide) (allKeysTrace gWS) rfl
    exact h.2 ⟨some "a", 0, 1⟩ (by decide) (by decide) "m" (by decide) "v" 3
      (by decide) 4 (by decide)

/-- Claim C4 counterexample: on `gCex` variable 1, owned by reachable object
1, is dropped from the returned dictionary: its key `"0/v"` is overwritten by
variable 2 and it appears among no values. -/
theorem C4_counterexample : ¬ ClaimC4 gCex := by
  intro h
  have := h [("0/v", 2)] rfl 1 gCex_reach1 "v" 1 (by decide)
  exact absurd this (by decide)

/-- Claim C4 (amended): provided all generated checkpoint keys are pairwise
distinct, every variable owned by a reachable object appears among the values
of the returned dictionary. -/
theorem C4_amended (g : Graph) (hnd : NodupKeys g) (d : List (String × Nat))
    (hok : name_variables g = .ok d) (i : Nat) (hreach : ObjReachable g i)
    (nm : String) (vid : Nat) (hov : (nm, vid) ∈ (g.obj i).ownedVars) :
    vid ∈ d.map (·.2) := by
  have hd := name_variables_ok_inv g hnd hok
  obtain ⟨p0, r0, hr0ref, hr0p⟩ := hreach
  have hr0mem : r0 ∈ bfs_sorted g := (mem_bfs_iff_reachable g r0).mpr ⟨p0, hr0p⟩
  rw [← hr0ref] at hov
  have hmem : (keyOf (name_from_path (pathOf g r0)) nm, vid) ∈ nonSlotTrace g :=
    mem_nonSlotTrace g hr0mem hov
  rw [hd]
  exact List.mem_map.mpr ⟨_, List.mem_append.mpr (Or.inl hmem), rfl⟩

/-- Claim C4 witness: the amended claim instantiated on `gW`. -/
theorem C4_witness : 7 ∈ ([("w", 5), ("a/x", 7)] : List (String × Nat)).map (·.2) :=
  C4_amended gW (by decide) [("w", 5), ("a/x", 7)] rfl 1
    ⟨[⟨some "a", 0, 1⟩], ⟨some "a", 0, 1⟩, rfl,
      ReachPath.cons ReachPath.nil (by decide)⟩
    "x" 7 (by decide)

/-- Claim C5: determinism. Two structurally equal graphs — equal up to a
renaming of object identities and variable identities, with the same
dependency declaration order, local names, owned-variable names and optimizer
slots — produce the same name-to-variable mapping: identical key strings in
identical order, with values related by the variable correspondence. -/
theorem C5_determinism (ρ σ : Nat → Nat) (g1 g2 : Graph)
    (hiso : StructuralIso ρ σ g1 g2) :
    name_variables g2 = (name_variables g1).map (mapVals σ) ∧
    ∀ d1, name_variables g1 = .ok d1 →
      ∃ d2, name_variables g2 = .ok d2 ∧
        d2.map (·.1) = d1.map (·.1) ∧ d2.map (·.2) = d1.map (fun e => σ e.2) := by
  have h := name_variables_ren hiso
  refine ⟨h, ?_⟩
  intro d1 h1
  refine ⟨mapVals σ d1, ?_, ?_, ?_⟩
  · rw [h, h1]
    rfl
  · unfold mapVals
    rw [List.map_map]
    rfl
  · unfold mapVals
    rw [List.map_map]
    rfl

/-- Claim C5 witness: `gW2` is `gWS` with object ids swapped and variable ids
shifted, and the two runs agree as the theorem states. -/
theorem C5_witness :
    StructuralIso rhoW sigmaW gWS gW2 ∧
    name_variables gW2 = (name_variables gWS).map (mapVals sigmaW) := by
  have hiso : StructuralIso rhoW sigmaW gWS gW2 := by
    unfold StructuralIso WFGraph
    decide
  exact ⟨hiso, (C5_determinism rhoW sigmaW gWS gW2 hiso).1⟩

/-- Claim C7: after any sequence of `add_variable` / `track_checkpointable`
calls from `__init__` (raising calls leave the state unchanged), the i-th
dependency has `local_uid = i`, the non-`None` dependency names are pairwise
distinct and match the validation regex, and the owned-variable names are
pairwise distinct. -/
theorem C7_invariant (ops : List CkptOp) : CkptInv (runOps ops initCkpt) :=
  ckptInv_of_strong _ (strongInv_run ops initCkpt strongInv_init)

/-- Claim C7 witness: the invariant after a concrete call sequence including
failing calls. -/
theorem C7_witness :
    CkptInv (runOps [.track 5 (some "a"), .addVar "x" 1, .track 6 none,
      .addVar "x" 2, .track 7 (some "a"), .track 8 (some "bad/name")] initCkpt) :=
  C7_invariant _

/-- Claim C8: `add_variable` raises exactly when the requested name equals
the name of a previously created variable; the raising path leaves the state
unchanged; on success the variable is appended last under the given name (and
the name is appended to the name set). `track_checkpointable` likewise leaves
the state unchanged whenever it raises. -/
theorem C8_error_behavior (s : CkptState)
    (hc : s.owned_variable_names = s.owned_variables.map (·.1))
    (n : String) (v : Nat) :
    (isErr (add_variable s n v).2 = true ↔ n ∈ s.owned_variables.map (·.1)) ∧
    (isErr (add_variable s n v).2 = true → (add_variable s n v).1 = s) ∧
    (isErr (add_variable s n v).2 = false →
      (add_variable s n v).1.owned_variables = s.owned_variables ++ [(n, v)] ∧
      (add_variable s n v).1.owned_variable_names =
        s.owned_variable_names ++ [n]) ∧
    (∀ r nm, isErr (track_checkpointable s r nm).2 = true →
      (track_checkpointable s r nm).1 = s) := by
  refine ⟨?_, ?_, ?_, ?_⟩
  · unfold add_variable
    by_cases hmem : n ∈ s.owned_variable_names
    · rw [if_pos hmem]
      simpa [isErr, ← hc] using hmem
    · rw [if_neg hmem]
      simpa [isErr, ← hc] using hmem
  · unfold add_variable
    by_cases hmem : n ∈ s.owned_variable_names
    · rw [if_pos hmem]
      intro _
      rfl
    · rw [if_neg hmem]
      intro habs
      exact absurd habs (by simp [isErr])
  · unfold add_variable
    by_cases hmem : n ∈ s.owned_variable_names
    · rw [if_pos hmem]
      intro habs
      exact absurd habs (by simp [isErr])
    · rw [if_neg hmem]
      intro _
      exact ⟨rfl, rfl⟩
  · intro r nm
    cases nm with
    | none =>
        rw [track_none_eq]
        intro habs
        exact absurd habs (by simp [isErr])
    | some n' =>
        rw [track_some_eq]
        by_cases hval : pyValidLocalName n'
        · rw [if_neg (by simpa using hval)]
          by_cases hmem : n' ∈ s.dependency_names
          · rw [if_pos hmem]
            intro _
            rfl
          · rw [if_neg hmem]
            intro habs
            exact absurd habs (by simp [isErr])
        · rw [if_pos (by simpa using hval)]
          intro _
          rfl

/-- Claim C8 witness: instantiated on a state already owning `"x"`. -/
theorem C8_witness :
    (isErr (add_variable sW "x" 2).2 = true ↔
      "x" ∈ sW.owned_variables.map (·.1)) ∧
    (isErr (add_variable sW "x" 2).2 = true → (add_variable sW "x" 2).1 = sW) ∧
    (isErr (add_variable sW "x" 2).2 = false →
      (add_variable sW "x" 2).1.owned_variables =
        sW.owned_variables ++ [("x", 2)] ∧
      (add_variable sW "x" 2).1.owned_variable_names =
        sW.owned_variable_names ++ ["x"]) ∧
    (∀ r nm, isErr (track_checkpointable sW r nm).2 = true →
      (track_checkpointable sW r nm).1 = sW) :=
  C8_error_behavior sW rfl "x" 2

